import Mathlib

set_option maxRecDepth 10000

/-!
Verification of the version-bump scripts `bump-conan.py` and `bump-vcpkg.py`
(jeremy-rifkin/dotfiles).  The Python source is shallowly embedded: strings
become `List Char`, the regular expressions of the scripts become explicit
deterministic matchers (faithful to Python `re` backtracking semantics for
these particular patterns), the YAML/JSON documents become association lists,
and each `main` becomes a pure function from an environment (outcomes of the
external commands) to the trace of executed side effects plus an exit status.
-/

/-! ## Basic string machinery -/

/-- Convert a string literal to the character-list representation used
throughout the development. -/
def toL (s : String) : List Char := s.data

/-- Characters allowed in the pre-release tail of a version match:
the Python character class `[A-Za-z0-9_-]`. -/
def isVerChar (c : Char) : Bool := c.isAlphanum || c = '-' || c = '_'

/-- Length of the maximal leading run of characters satisfying `f`
(Python's greedy `X+` / `X*` over a single character class). -/
def runLen (f : Char → Bool) : List Char → Nat
  | [] => 0
  | c :: cs => if f c then runLen f cs + 1 else 0

/-- Length of the maximal leading run of decimal digits (Python `\d+`
measured greedily at the head of the remaining input). -/
def digitRun : List Char → Nat := runLen Char.isDigit

/-- Length of the maximal leading run of `[A-Za-z0-9_-]` characters. -/
def classRun : List Char → Nat := runLen isVerChar

/-- `leadsWith p t` holds when `p` is an initial segment of `t`. -/
def leadsWith : List Char → List Char → Bool
  | [], _ => true
  | _ :: _, [] => false
  | p :: ps, c :: cs => p = c && leadsWith ps cs

/-- The zero-width archive-extension lookahead of `derive_tarball_url`:
`(?=\.(?:tar\.gz|zip))`. -/
def extAt (t : List Char) : Bool := leadsWith (toL ".tar.gz") t || leadsWith (toL ".zip") t

/-! ## The version regex of `derive_tarball_url`

Python pattern: `(v?)(\d+\.\d+\.\d+(?:[A-Za-z0-9_-]*)?)`, optionally with the
extension lookahead.  For this pattern Python's backtracking is deterministic
up to the end position of the third `\d+` plus tail: the digit runs before
each literal `.` are forced to be maximal, and the end position chosen is the
largest end within the `[A-Za-z0-9_-]` run at which the lookahead succeeds
(for the unanchored variant, simply the whole run). -/

/-- Search downward from `e` for the largest end offset (at least 1) inside
the class run at which the extension lookahead succeeds.  Mirrors the regex
backtracking over `\d+(?:[A-Za-z0-9_-]*)?` followed by the lookahead. -/
def bestE (t4 : List Char) : Nat → Option Nat
  | 0 => none
  | e + 1 => if extAt (t4.drop (e + 1)) then some (e + 1) else bestE t4 e

/-- Match the part of the pattern after the two literal dots, starting at
`t4`: at least one digit, then the optional class tail; returns the number of
characters of `t4` inside group 2.  `anchored` selects the variant with the
extension lookahead. -/
def afterDots (anchored : Bool) (t4 : List Char) : Option Nat :=
  if digitRun t4 = 0 then none
  else if anchored then bestE t4 (classRun t4)
  else some (classRun t4)

/-- Stage after the first group and first dot have been consumed: expect a
literal `.`, then the second `\d+`, the second `.`, and the tail. -/
def parseLevel2 (anchored : Bool) (d1 d2 : Nat) : List Char → Option Nat
  | c2 :: t4 =>
    if c2 = '.' then (afterDots anchored t4).map (fun e => d1 + 1 + d2 + 1 + e)
    else none
  | [] => none

/-- Stage after the first `\d+` has been consumed: expect a literal `.`,
then the rest of the pattern. -/
def parseLevel1 (anchored : Bool) (d1 : Nat) : List Char → Option Nat
  | c1 :: t2 =>
    if c1 = '.' then
      if digitRun t2 = 0 then none
      else parseLevel2 anchored d1 (digitRun t2) (t2.drop (digitRun t2))
    else none
  | [] => none

/-- Match group 2 of the pattern (`\d+\.\d+\.\d+(?:[A-Za-z0-9_-]*)?`) at the
head of `t`; returns its length. -/
def parseVer (anchored : Bool) (t : List Char) : Option Nat :=
  if digitRun t = 0 then none
  else parseLevel1 anchored (digitRun t) (t.drop (digitRun t))

/-- Attempt the whole pattern `(v?)(...)` at the head of `t`.  Returns
`(hasV, length of group 2)` on success. -/
def tryAt (anchored : Bool) (t : List Char) : Option (Bool × Nat) :=
  match t with
  | [] => none
  | c :: t2 =>
    if c = 'v' then (parseVer anchored t2).map (fun n => (true, n))
    else (parseVer anchored (c :: t2)).map (fun n => (false, n))

/-- `re.search`: scan left to right for the first position where the pattern
matches; returns `(start index, hasV, length of group 2)`. -/
def searchVer (anchored : Bool) : List Char → Option (Nat × Bool × Nat)
  | [] => none
  | c :: cs =>
    match tryAt anchored (c :: cs) with
    | some (hv, n) => some (0, hv, n)
    | none => (searchVer anchored cs).map (fun r => (r.1 + 1, r.2.1, r.2.2))

/-- Result type of the URL derivation (`derive_tarball_url` raises
`RuntimeError` in two distinct places). -/
inductive DRes
  | ok (url : List Char)
  | errNoSources
  | errPatternNotFound
  deriving DecidableEq

/-- The pure core of `derive_tarball_url`: given the sample URL and the new
version, substitute the matched version span.  First tries the
extension-anchored pattern, then falls back to the unanchored one; on a match
returns `sample[:m.start] ++ (v if group 1 matched) ++ new_version ++
sample[m.end:]`, otherwise the `Unrecognisable version pattern` error. -/
def deriveUrlCore (url newVersion : List Char) : DRes :=
  let m := match searchVer true url with
           | some r => some r
           | none => searchVer false url
  match m with
  | none => DRes.errPatternNotFound
  | some (i, hv, n) =>
    DRes.ok (url.take i ++ (if hv then ['v'] else []) ++ newVersion ++
             url.drop (i + (if hv then 1 else 0) + n))

/-! ## Declarative shape of a code-matchable version substring -/

/-- Declarative shape of group 2 of the code's pattern: exactly three
dot-separated digit groups followed by an optional dot-free tail of
`[A-Za-z0-9_-]` characters (the tail begins at the third digit group, whose
first character is a digit). -/
def Ver3 (w : List Char) : Prop :=
  ∃ g1 g2 d g3t, w = g1 ++ '.' :: (g2 ++ '.' :: (d :: g3t)) ∧
    g1 ≠ [] ∧ g1.all Char.isDigit ∧ g2 ≠ [] ∧ g2.all Char.isDigit ∧
    d.isDigit ∧ (d :: g3t).all isVerChar

/-- The input contains a code-matchable version substring somewhere. -/
def HasVer3 (s : List Char) : Prop := ∃ p w r, s = p ++ w ++ r ∧ Ver3 w

/-- The input contains a code-matchable version substring immediately
followed by a known archive extension. -/
def HasAnchVer3 (s : List Char) : Prop :=
  ∃ p w r, s = p ++ w ++ r ∧ Ver3 w ∧ extAt r = true

/-- Modelled from the spec's words (claim C1): a version-shaped substring is
"one or more dot-separated numeric groups, optionally prefixed by a literal
v, optionally followed by a pre-release suffix of
alphanumerics/hyphens/underscores".  Used only to compare the spec's claim
against the code's actual pattern. -/
def joinDots : List (List Char) → List Char
  | [] => []
  | [g] => g
  | g :: gs => g ++ '.' :: joinDots gs

/-- Modelled from the spec's words (claim C1): the spec's notion of a
version-shaped substring (one **or more** numeric groups). -/
def SpecVerShaped (w : List Char) : Prop :=
  ∃ gs sfx, gs ≠ [] ∧ (∀ g ∈ gs, g ≠ [] ∧ g.all Char.isDigit) ∧
    sfx.all isVerChar = true ∧
    (w = joinDots gs ++ sfx ∨ w = 'v' :: (joinDots gs ++ sfx))

/-- Modelled from the spec's words (claim C1): the input contains a
spec-version-shaped substring somewhere. -/
def HasSpecVer (s : List Char) : Prop := ∃ p w r, s = p ++ w ++ r ∧ SpecVerShaped w

/-! ## conandata.yml model (`update_conandata`, `derive_tarball_url`) -/

/-- A YAML mapping key as relevant to the presence check of
`update_conandata`: the inserted key is always a (double-quoted) string;
keys of any other YAML type are represented abstractly and never compare
equal to a string key (ruamel round-trip scalars keep their Python type, and
`str.__eq__` with a non-str is `False`). -/
inductive YKey
  | strK (s : List Char)
  | rawK (n : Nat)
  deriving DecidableEq

/-- One value of the `sources` mapping: at least `url` and `sha256`. -/
structure SrcEntry where
  url : List Char
  sha256 : List Char
  deriving DecidableEq

/-- The conandata.yml document as far as the scripts read or write it:
an optional ordered `sources` mapping (`none` models a document without a
`sources` key; `data.setdefault` treats it as empty). -/
structure Conandata where
  sources : Option (List (YKey × SrcEntry))
  deriving DecidableEq

/-- Outcome reported by `update_conandata` (`True` = added, `False` =
already present). -/
inductive UpdRes
  | added
  | alreadyPresent
  deriving DecidableEq

/-- Result of one `update_conandata` call: the reported outcome, the
resulting on-disk document, and whether the file was rewritten
(`save_yaml` runs only on the add path). -/
structure UpdOut where
  res : UpdRes
  doc : Conandata
  wrote : Bool
  deriving DecidableEq

/-- `update_conandata`: if the (typed, string) key is already present the
call is a no-op that does not rewrite the file; otherwise the new entry is
inserted at position 0 and the file is saved. -/
def updateConandata (d : Conandata) (v url sha : List Char) : UpdOut :=
  let src := d.sources.getD []
  if src.any (fun p => decide (p.1 = YKey.strK v)) then
    ⟨UpdRes.alreadyPresent, d, false⟩
  else
    ⟨UpdRes.added, ⟨some ((YKey.strK v, ⟨url, sha⟩) :: src)⟩, true⟩

/-- `derive_tarball_url` at document level: error when the `sources` block
is absent or empty, otherwise derive from the first entry's `url`. -/
def deriveTarballUrl (d : Conandata) (v : List Char) : DRes :=
  match d.sources.getD [] with
  | [] => DRes.errNoSources
  | (_, e) :: _ => deriveUrlCore e.url v

/-! ## config.yml model (`update_config`) -/

/-- The per-version metadata record of config.yml (e.g. `folder: all`). -/
abbrev CfgVal := List (List Char × List Char)

/-- The config.yml document: an optional ordered `versions` mapping. -/
structure ConfigDoc where
  versions : Option (List (YKey × CfgVal))
  deriving DecidableEq

/-- The console messages `update_config` can print. -/
inductive CfgMsg
  | warnNotFound
  | skipAlready
  | warnNoVersions
  | infoAdded
  deriving DecidableEq

/-- Which branch `update_config` took. -/
inductive CfgRes
  | updated
  | skippedAlready
  | skippedMissingFile
  | skippedNoVersions
  deriving DecidableEq

/-- Result of one `update_config` call: branch taken, resulting on-disk
document (`none` = file still absent), and printed messages. -/
structure CfgOut where
  res : CfgRes
  doc : Option ConfigDoc
  msgs : List CfgMsg
  deriving DecidableEq

/-- `update_config` on an existing file: a present version skips; an empty
versions mapping warns and skips; otherwise the new version is inserted at
position 0 with a (deep) copy of the first entry's record. -/
def updateConfigSome (d : ConfigDoc) (v : List Char) : CfgOut :=
  if (d.versions.getD []).any (fun p => decide (p.1 = YKey.strK v)) then
    ⟨CfgRes.skippedAlready, some d, [CfgMsg.skipAlready]⟩
  else
    match d.versions.getD [] with
    | [] => ⟨CfgRes.skippedNoVersions, some d, [CfgMsg.warnNoVersions]⟩
    | (k0, val0) :: rest =>
      ⟨CfgRes.updated, some ⟨some ((YKey.strK v, val0) :: (k0, val0) :: rest)⟩,
        [CfgMsg.infoAdded]⟩

/-- `update_config`: a missing file warns and skips; otherwise edit the
existing document. -/
def updateConfig (cfg : Option ConfigDoc) (v : List Char) : CfgOut :=
  match cfg with
  | none => ⟨CfgRes.skippedMissingFile, none, [CfgMsg.warnNotFound]⟩
  | some d => updateConfigSome d v

/-! ## vcpkg.json model (`update_vcpkg_json`) -/

/-- A JSON value (as loaded by `json.load`). -/
inductive JVal
  | jstr (s : List Char)
  | jnum (n : Int)
  | jbool (b : Bool)
  | jnull
  | jarr (xs : List JVal)
  | jobj (fs : List (List Char × JVal))

/-- First-match association lookup on a JSON object (Python `dict.get`). -/
def getVal (k : List Char) : List (List Char × JVal) → Option JVal
  | [] => none
  | (k', x) :: t => if k' = k then some x else getVal k t

/-- `update_vcpkg_json`: Python `data["version"] = new_version` on an
insertion-ordered dict — replace in place if the key exists, else append. -/
def updateVcpkgJson (doc : List (List Char × JVal)) (v : List Char) :
    List (List Char × JVal) :=
  if doc.any (fun p => decide (p.1 = toL "version")) then
    doc.map (fun p => if p.1 = toL "version" then (toL "version", JVal.jstr v) else p)
  else doc ++ [(toL "version", JVal.jstr v)]

/-! ## portfile.cmake model (`update_portfile_sha512`) -/

/-- Python `\s` restricted to its ASCII members (the portfile is ASCII). -/
def isWsC (c : Char) : Bool :=
  c = ' ' || c = '\t' || c = '\n' || c = '\r' || c = '\x0b' || c = '\x0c'

/-- Python `[0-9a-fA-F]`. -/
def isHexC (c : Char) : Bool :=
  c.isDigit || ('a' ≤ c && c ≤ 'f') || ('A' ≤ c && c ≤ 'F')

/-- Length of the maximal leading whitespace run (`\s+` is forced to be
maximal here because a shorter run would put a whitespace character where a
hex digit is required). -/
def wsRun : List Char → Nat := runLen isWsC

/-- Try the pattern `(SHA512)\s+[0-9a-fA-F]{128}` at the head of `t`;
returns the number of characters consumed. -/
def shaMatchAt (t : List Char) : Option Nat :=
  if leadsWith (toL "SHA512") t then
    let t2 := t.drop 6
    let w := wsRun t2
    if w = 0 then none
    else
      let h := (t2.drop w).take 128
      if h.length = 128 ∧ h.all isHexC then some (6 + w + 128) else none
  else none

theorem shaMatchAt_pos {t : List Char} {k : Nat} (h : shaMatchAt t = some k) : 1 ≤ k := by
  unfold shaMatchAt at h
  split at h
  · simp only at h
    split at h
    · simp at h
    · split at h
      · simp only [Option.some.injEq] at h
        omega
      · simp at h
  · simp at h

/-- `re.sub(r'(SHA512)\s+[0-9a-fA-F]{128}', r'\1 {new}', content)`: scan left
to right, replace each non-overlapping match by `SHA512` + one space + the
new digest, copy everything else verbatim. -/
def subSha (nw : List Char) : List Char → List Char
  | [] => []
  | c :: cs =>
    match hm : shaMatchAt (c :: cs) with
    | some k => toL "SHA512 " ++ nw ++ subSha nw ((c :: cs).drop k)
    | none => c :: subSha nw cs
termination_by t => t.length
decreasing_by
  · simp only [List.length_drop]
    have := shaMatchAt_pos hm
    simp only [List.length_cons]
    omega
  · simp

/-- Modelled from the spec's words (claim C10): the claimed transformation —
replace each 128-hex digest following `SHA512` by the new digest and leave
every other byte (including the whitespace between `SHA512` and the digest)
unchanged.  Used only to compare the claim against the code. -/
def specSubSha (nw : List Char) : List Char → List Char
  | [] => []
  | c :: cs =>
    match hm : shaMatchAt (c :: cs) with
    | some k => (c :: cs).take (k - 128) ++ nw ++ specSubSha nw ((c :: cs).drop k)
    | none => c :: specSubSha nw cs
termination_by t => t.length
decreasing_by
  · simp only [List.length_drop]
    have := shaMatchAt_pos hm
    simp only [List.length_cons]
    omega
  · simp

/-- A full occurrence of the portfile digest pattern at the head of `t`. -/
def ShaOcc (t : List Char) : Prop :=
  ∃ ws h rest, t = toL "SHA512" ++ ws ++ h ++ rest ∧ ws ≠ [] ∧
    ws.all isWsC = true ∧ h.length = 128 ∧ h.all isHexC = true

/-- The content contains an occurrence of the digest pattern somewhere. -/
def HasShaOcc (c : List Char) : Prop := ∃ a t, c = a ++ t ∧ ShaOcc t

/-! ## Workflow drivers: events, environments and the two `main`s -/

/-- Observable side effects of the two workflows, in the order the scripts
issue them. -/
inductive Ev
  | gitCheckoutMaster
  | gitFetch
  | gitRebase
  | gitPush
  | gitCheckoutBranch
  | netFetchSha
  | editConandata
  | editConfig
  | build
  | gitAdd
  | gitCommit
  | gitPushBranch
  | createPr
  | editVcpkgJson
  | editPortfile
  | rmInstalled
  | vcpkgInstall
  | vcpkgAddVersion
  deriving DecidableEq

/-- Process exit status. -/
inductive ExitSt
  | ok
  | err
  deriving DecidableEq

/-- The initial `git checkout master; fetch; rebase; push; checkout -b`. -/
def gitFlowTrace : List Ev :=
  [Ev.gitCheckoutMaster, Ev.gitFetch, Ev.gitRebase, Ev.gitPush, Ev.gitCheckoutBranch]

/-- Command-line inputs of `bump-conan.py` relevant to the core. -/
structure ConanArgs where
  repoUrl : Option (List Char)
  version : List Char
  noBuild : Bool
  noPr : Bool

/-- Environment of one `bump-conan.py` invocation: the documents on disk and
the outcomes of the external commands (each `run` uses `check=True`, so a
failing command raises and aborts the script). -/
structure ConanWorld where
  conandataExists : Bool
  conandata : Conandata
  config : Option ConfigDoc
  shaHex : List Char
  gitOk : Bool
  netOk : Bool
  buildOk : Bool
  ghAvailable : Bool

/-- Python `str.rstrip('/')`. -/
def rstripSlash (s : List Char) : List Char :=
  (s.reverse.dropWhile (fun c => c = '/')).reverse

/-- The tarball URL used by `bump-conan.py`: either built from the
`--repo-url` override or derived from the first existing source entry. -/
def urlOf (a : ConanArgs) (w : ConanWorld) : DRes :=
  match a.repoUrl with
  | some r =>
    DRes.ok (rstripSlash r ++ toL "/archive/refs/tags/v" ++ a.version ++ toL ".tar.gz")
  | none => deriveTarballUrl w.conandata a.version

/-- The commit/push/PR tail of `bump-conan.py` (runs only after a successful
or skipped build). -/
def finishCommit (t : List Ev) (a : ConanArgs) (w : ConanWorld) : List Ev × ExitSt :=
  let t5 := t ++ [Ev.gitAdd, Ev.gitCommit, Ev.gitPushBranch]
  if a.noPr then (t5, ExitSt.ok)
  else if w.ghAvailable then (t5 ++ [Ev.createPr], ExitSt.ok)
  else (t5, ExitSt.ok)

/-- The part of `bump-conan.py main()` after a tarball URL was obtained:
sha256 download, git flow, metadata edits, optional build, commit, push,
optional PR.  A failing external command aborts with a non-zero exit at
that point. -/
def conanMainWithUrl (a : ConanArgs) (w : ConanWorld) (u : List Char) : List Ev × ExitSt :=
  if w.netOk = false then ([Ev.netFetchSha], ExitSt.err)
  else if w.gitOk = false then ([Ev.netFetchSha, Ev.gitCheckoutMaster], ExitSt.err)
  else
    if (updateConandata w.conandata a.version u w.shaHex).res = UpdRes.alreadyPresent then
      (Ev.netFetchSha :: gitFlowTrace, ExitSt.ok)
    else
      if a.noBuild = false then
        if w.buildOk = false then
          ((Ev.netFetchSha :: gitFlowTrace) ++ Ev.editConandata ::
            ((if (updateConfig w.config a.version).res = CfgRes.updated then [Ev.editConfig]
              else []) ++ [Ev.build]), ExitSt.err)
        else
          finishCommit ((Ev.netFetchSha :: gitFlowTrace) ++ Ev.editConandata ::
            ((if (updateConfig w.config a.version).res = CfgRes.updated then [Ev.editConfig]
              else []) ++ [Ev.build])) a w
      else
        finishCommit ((Ev.netFetchSha :: gitFlowTrace) ++ Ev.editConandata ::
          (if (updateConfig w.config a.version).res = CfgRes.updated then [Ev.editConfig]
           else [])) a w

/-- Dispatch on the result of the URL derivation (`derive_tarball_url`
raises before any network access, file write or git command). -/
def conanMainUrl (a : ConanArgs) (w : ConanWorld) : DRes → List Ev × ExitSt
  | DRes.errNoSources => ([], ExitSt.err)
  | DRes.errPatternNotFound => ([], ExitSt.err)
  | DRes.ok u => conanMainWithUrl a w u

/-- `bump-conan.py main()` as a trace function: conandata existence check,
URL derivation, then the effectful tail. -/
def conanMain (a : ConanArgs) (w : ConanWorld) : List Ev × ExitSt :=
  if w.conandataExists = false then ([], ExitSt.err)
  else conanMainUrl a w (urlOf a w)

/-- Environment of one `bump-vcpkg.py` invocation. -/
structure VcpkgWorld where
  repoFound : Option (List Char)
  vcpkgJson : List (List Char × JVal)
  portfile : List Char
  gitOk : Bool
  netOk : Bool
  installOk : Bool
  addVersionOk : Bool
  ghAvailable : Bool

/-- `bump-vcpkg.py main()` as a trace function: git flow, REPO parse, sha512
download, both file edits, **commit**, clean + `vcpkg install` (the build),
`x-add-version`, second commit, push, PR.  Note the first commit precedes
the build. -/
def vcpkgMain (v : List Char) (w : VcpkgWorld) : List Ev × ExitSt :=
  if w.gitOk = false then ([Ev.gitCheckoutMaster], ExitSt.err)
  else
    match w.repoFound with
    | none => (gitFlowTrace, ExitSt.err)
    | some _ =>
      if w.netOk = false then (gitFlowTrace ++ [Ev.netFetchSha], ExitSt.err)
      else
        let t3 := gitFlowTrace ++
          [Ev.netFetchSha, Ev.editVcpkgJson, Ev.editPortfile, Ev.gitCommit]
        let t4 := t3 ++ [Ev.rmInstalled, Ev.vcpkgInstall]
        if w.installOk = false then (t4, ExitSt.err)
        else
          let t5 := t4 ++ [Ev.vcpkgAddVersion]
          if w.addVersionOk = false then (t5, ExitSt.err)
          else
            let t6 := t5 ++ [Ev.gitCommit, Ev.gitPushBranch]
            if w.ghAvailable then (t6 ++ [Ev.createPr], ExitSt.ok) else (t6, ExitSt.ok)

/-! ## Sanity checks of the URL deriver on concrete inputs -/

example : deriveUrlCore (toL "https://github.com/o/r/archive/v1.2.3.tar.gz") (toL "2.0.0")
    = DRes.ok (toL "https://github.com/o/r/archive/v2.0.0.tar.gz") := by decide

example : deriveUrlCore (toL "https://x.org/pkg-1.2.3rc1.zip") (toL "1.3.0")
    = DRes.ok (toL "https://x.org/pkg-1.3.0.zip") := by decide

example : deriveUrlCore (toL "https://example.com/v1.2.tar.gz") (toL "9.9.9")
    = DRes.errPatternNotFound := by decide

example : deriveUrlCore (toL "https://d5.example.com/d/1.2.3/p.tgz") (toL "2.0.0")
    = DRes.ok (toL "https://d5.example.com/d/2.0.0/p.tgz") := by decide

/-! ## Generic lemmas about character runs and initial segments -/

theorem runLen_nil (f : Char → Bool) : runLen f [] = 0 := rfl

theorem runLen_cons (f : Char → Bool) (c : Char) (cs : List Char) :
    runLen f (c :: cs) = if f c then runLen f cs + 1 else 0 := rfl

theorem runLen_le_length (f : Char → Bool) (t : List Char) : runLen f t ≤ t.length := by
  induction t with
  | nil => simp [runLen]
  | cons c cs ih =>
    rw [runLen_cons]
    by_cases h : f c <;> simp [h] <;> omega

theorem runLen_append_all (f : Char → Bool) (xs t : List Char) (h : xs.all f = true) :
    runLen f (xs ++ t) = xs.length + runLen f t := by
  induction xs with
  | nil => simp
  | cons c cs ih =>
    simp only [List.all_cons, Bool.and_eq_true] at h
    simp only [List.cons_append, runLen_cons, h.1, if_true, ih h.2, List.length_cons]
    omega

theorem runLen_of_all (f : Char → Bool) (t : List Char) (h : t.all f = true) :
    runLen f t = t.length := by
  have := runLen_append_all f t [] h
  simpa using this

theorem runLen_eq_zero_of_head (f : Char → Bool) (c : Char) (cs : List Char)
    (h : f c = false) : runLen f (c :: cs) = 0 := by
  simp [runLen_cons, h]

theorem runLen_split (f : Char → Bool) (xs r : List Char)
    (hall : xs.all f = true) (hstop : ∀ c cs, r = c :: cs → f c = false) :
    runLen f (xs ++ r) = xs.length := by
  rw [runLen_append_all f xs r hall]
  cases r with
  | nil => simp [runLen]
  | cons c cs =>
    rw [runLen_eq_zero_of_head f c cs (hstop c cs rfl)]
    omega

theorem runLen_take_all (f : Char → Bool) (t : List Char) :
    (t.take (runLen f t)).all f = true := by
  induction t with
  | nil => simp
  | cons c cs ih =>
    rw [runLen_cons]
    by_cases h : f c
    · simp [h, ih]
    · simp [h]

theorem runLen_drop_stop (f : Char → Bool) (t : List Char) (c : Char) (cs : List Char)
    (h : t.drop (runLen f t) = c :: cs) : f c = false := by
  induction t with
  | nil => simp at h
  | cons a t' ih =>
    rw [runLen_cons] at h
    by_cases ha : f a
    · simp only [ha, if_true, List.drop_succ_cons] at h
      exact ih h
    · simp only [ha, if_false, List.drop_zero] at h
      cases h
      exact (Bool.not_eq_true _).mp (by simp [ha])

theorem runLen_append_of_short (f : Char → Bool) (xs t : List Char)
    (h : runLen f xs < xs.length) : runLen f (xs ++ t) = runLen f xs := by
  induction xs with
  | nil => simp at h
  | cons c cs ih =>
    rw [runLen_cons] at h ⊢
    rw [List.cons_append, runLen_cons]
    by_cases hc : f c
    · simp only [hc, if_true] at h ⊢
      rw [ih (by simp at h; omega)]
    · simp [hc]

theorem leadsWith_iff (p t : List Char) :
    leadsWith p t = true ↔ ∃ r, t = p ++ r := by
  induction p generalizing t with
  | nil => simp [leadsWith]
  | cons c cs ih =>
    cases t with
    | nil =>
      simp only [leadsWith, List.cons_append]
      constructor
      · intro h; cases h
      · rintro ⟨r, hr⟩; cases hr
    | cons a as =>
      simp only [leadsWith, Bool.and_eq_true, decide_eq_true_eq, ih, List.cons_append,
        List.cons.injEq]
      constructor
      · rintro ⟨h1, r, h2⟩; exact ⟨r, h1.symm, h2⟩
      · rintro ⟨r, h1, h2⟩; exact ⟨h1.symm, r, h2⟩

theorem leadsWith_append_of (p xs ys : List Char) (h : leadsWith p xs = true) :
    leadsWith p (xs ++ ys) = true := by
  rw [leadsWith_iff] at h ⊢
  obtain ⟨r, hr⟩ := h
  exact ⟨r ++ ys, by simp [hr]⟩

theorem extAt_append_of (xs ys : List Char) (h : extAt xs = true) :
    extAt (xs ++ ys) = true := by
  unfold extAt at h ⊢
  rcases Bool.or_eq_true _ _ |>.mp h with h' | h'
  · exact Bool.or_eq_true _ _ |>.mpr (Or.inl (leadsWith_append_of _ _ _ h'))
  · exact Bool.or_eq_true _ _ |>.mpr (Or.inr (leadsWith_append_of _ _ _ h'))

theorem append_split_of_le {xs u ys v : List Char} (h : xs ++ u = ys ++ v)
    (hl : ys.length ≤ xs.length) : ∃ t, xs = ys ++ t ∧ v = t ++ u := by
  rcases List.append_eq_append_iff.mp h with ⟨a', ha1, ha2⟩ | ⟨c', hc1, hc2⟩
  · have hnl : a' = [] := by
      have hxl : ys.length = xs.length + a'.length := by
        rw [ha1]; simp
      have : a'.length = 0 := by omega
      exact List.length_eq_zero.mp this
    subst hnl
    refine ⟨[], by simpa using ha1.symm, by simpa using ha2.symm⟩
  · exact ⟨c', hc1, hc2⟩

theorem append_inj_of_length {xs u ys v : List Char} (h : xs ++ u = ys ++ v)
    (hl : xs.length = ys.length) : xs = ys ∧ u = v := by
  constructor
  · exact List.append_inj_left h hl
  · exact List.append_inj_right h hl

/-- Any mapping key that decides equal to `k` is exactly membership of `k`
among the mapped first components (used for the `in` checks of the editors). -/
theorem any_key_mem {κ α : Type} [DecidableEq κ] (l : List (κ × α)) (k : κ) :
    (l.any fun p => decide (p.1 = k)) = true ↔ k ∈ l.map Prod.fst := by
  induction l with
  | nil => simp
  | cons hd tl ih =>
    simp only [List.any_cons, Bool.or_eq_true, decide_eq_true_eq, ih, List.map_cons,
      List.mem_cons]
    constructor
    · rintro (h | h)
      · exact Or.inl h.symm
      · exact Or.inr h
    · rintro (h | h)
      · exact Or.inl h.symm
      · exact Or.inr h

/-! ## Lemmas about the conandata editor -/

theorem updateConandata_already (d : Conandata) (v url sha : List Char)
    (h : YKey.strK v ∈ (d.sources.getD []).map Prod.fst) :
    updateConandata d v url sha = ⟨UpdRes.alreadyPresent, d, false⟩ := by
  unfold updateConandata
  rw [if_pos ((any_key_mem _ _).mpr h)]

theorem updateConandata_fresh (d : Conandata) (v url sha : List Char)
    (h : YKey.strK v ∉ (d.sources.getD []).map Prod.fst) :
    updateConandata d v url sha
      = ⟨UpdRes.added, ⟨some ((YKey.strK v, ⟨url, sha⟩) :: d.sources.getD [])⟩, true⟩ := by
  unfold updateConandata
  rw [if_neg (fun hc => h ((any_key_mem _ _).mp hc))]

theorem updateConandata_res_iff (d : Conandata) (v url sha : List Char) :
    (updateConandata d v url sha).res = UpdRes.alreadyPresent ↔
      YKey.strK v ∈ (d.sources.getD []).map Prod.fst := by
  constructor
  · intro h
    by_contra hmem
    rw [updateConandata_fresh d v url sha hmem] at h
    exact absurd h (by simp)
  · intro h
    rw [updateConandata_already d v url sha h]

/-- Claim C2 (confirmed): upserting a fresh version reports `Added` and
rewrites the file; repeating the call with the same version and fields
reports `AlreadyPresent`, does not rewrite the file, and leaves the on-disk
document exactly as it was after the first call; the presence check is
membership of the exact typed string key among the mapping keys. -/
theorem c2_theorem (d : Conandata) (v url sha : List Char)
    (hfresh : YKey.strK v ∉ (d.sources.getD []).map Prod.fst) :
    (updateConandata d v url sha).res = UpdRes.added ∧
    (updateConandata d v url sha).wrote = true ∧
    (updateConandata (updateConandata d v url sha).doc v url sha).res
        = UpdRes.alreadyPresent ∧
    (updateConandata (updateConandata d v url sha).doc v url sha).wrote = false ∧
    (updateConandata (updateConandata d v url sha).doc v url sha).doc
        = (updateConandata d v url sha).doc ∧
    (∀ d' : Conandata,
        (updateConandata d' v url sha).res = UpdRes.alreadyPresent ↔
          YKey.strK v ∈ (d'.sources.getD []).map Prod.fst) := by
  have h1 := updateConandata_fresh d v url sha hfresh
  have hmem : YKey.strK v ∈
      (((updateConandata d v url sha).doc).sources.getD []).map Prod.fst := by
    rw [h1]
    simp
  have h2 := updateConandata_already (updateConandata d v url sha).doc v url sha hmem
  refine ⟨by rw [h1], by rw [h1], by rw [h2], by rw [h2], by rw [h2],
    fun d' => updateConandata_res_iff d' v url sha⟩

/-- Witness for C2 at a concrete document. -/
theorem c2_witness :
    (YKey.strK (toL "1.0.1") ∉
        ((Conandata.mk (some [(YKey.strK (toL "1.0.0"),
            ⟨toL "https://x/archive/v1.0.0.tar.gz", toL "aa"⟩)])).sources.getD []).map
            Prod.fst) ∧
    (updateConandata (Conandata.mk (some [(YKey.strK (toL "1.0.0"),
        ⟨toL "https://x/archive/v1.0.0.tar.gz", toL "aa"⟩)]))
        (toL "1.0.1") (toL "u") (toL "s")).res = UpdRes.added := by
  refine ⟨by decide, ?_⟩
  exact (c2_theorem _ (toL "1.0.1") (toL "u") (toL "s") (by decide)).1

/-- Claim C3 (confirmed): inserting a fresh version puts it at position 0:
the new key is the first key, every prior pair is still present with its
value unchanged, and the prior pairs keep their relative order (the tail of
the new mapping is exactly the old mapping). -/
theorem c3_theorem (d : Conandata) (v url sha : List Char)
    (hfresh : YKey.strK v ∉ (d.sources.getD []).map Prod.fst) :
    (updateConandata d v url sha).doc.sources
        = some ((YKey.strK v, ⟨url, sha⟩) :: d.sources.getD []) ∧
    ((updateConandata d v url sha).doc.sources.getD []).map Prod.fst
        = YKey.strK v :: (d.sources.getD []).map Prod.fst ∧
    (∀ k e, (k, e) ∈ d.sources.getD [] →
        (k, e) ∈ (updateConandata d v url sha).doc.sources.getD []) ∧
    ((updateConandata d v url sha).doc.sources.getD []).tail = d.sources.getD [] := by
  have h1 := updateConandata_fresh d v url sha hfresh
  rw [h1]
  refine ⟨rfl, by simp, ?_, by simp⟩
  intro k e hke
  simp only [Option.getD_some, List.mem_cons]
  exact Or.inr hke

/-- Witness for C3 at a concrete document. -/
theorem c3_witness :
    (updateConandata (Conandata.mk (some [(YKey.strK (toL "1.0.0"),
        ⟨toL "https://x/archive/v1.0.0.tar.gz", toL "aa"⟩)]))
        (toL "1.0.1") (toL "u") (toL "s")).doc.sources
      = some [(YKey.strK (toL "1.0.1"), ⟨toL "u", toL "s"⟩),
              (YKey.strK (toL "1.0.0"),
                ⟨toL "https://x/archive/v1.0.0.tar.gz", toL "aa"⟩)] :=
  (c3_theorem _ (toL "1.0.1") (toL "u") (toL "s") (by decide)).1

/-! ## Lemmas about the config.yml editor -/

/-- Claim C7 (counterexample to the claim as stated): when the companion
document does not exist, the editor does **not** skip silently — it prints a
`[warn] ... not found — skipping` message, exactly as in the empty case. -/
theorem c7_counterexample :
    updateConfig none (toL "1.0.0")
        = ⟨CfgRes.skippedMissingFile, none, [CfgMsg.warnNotFound]⟩ ∧
    (updateConfig none (toL "1.0.0")).msgs ≠ [] := by
  exact ⟨rfl, by decide⟩

/-- Claim C7 (amended): the new version's record is a copy of the current
first entry's record (not a blank one); an existing companion document with
no entries is skipped with a warning; a missing companion document is also
skipped **with a warning** (not silently); a version that is already present
is skipped without modification. -/
theorem c7_amended_theorem (v : List Char) :
    (updateConfig none v = ⟨CfgRes.skippedMissingFile, none, [CfgMsg.warnNotFound]⟩) ∧
    (∀ d : ConfigDoc, YKey.strK v ∈ (d.versions.getD []).map Prod.fst →
        updateConfig (some d) v = ⟨CfgRes.skippedAlready, some d, [CfgMsg.skipAlready]⟩) ∧
    (∀ d : ConfigDoc, d.versions.getD [] = [] →
        updateConfig (some d) v
          = ⟨CfgRes.skippedNoVersions, some d, [CfgMsg.warnNoVersions]⟩) ∧
    (∀ (d : ConfigDoc) (k0 : YKey) (val0 : CfgVal) (rest : List (YKey × CfgVal)),
        d.versions.getD [] = (k0, val0) :: rest →
        YKey.strK v ∉ (d.versions.getD []).map Prod.fst →
        updateConfig (some d) v
          = ⟨CfgRes.updated, some ⟨some ((YKey.strK v, val0) :: (k0, val0) :: rest)⟩,
              [CfgMsg.infoAdded]⟩) := by
  refine ⟨rfl, ?_, ?_, ?_⟩
  · intro d hmem
    show updateConfigSome d v = _
    unfold updateConfigSome
    rw [if_pos ((any_key_mem _ _).mpr hmem)]
  · intro d hnil
    show updateConfigSome d v = _
    unfold updateConfigSome
    rw [hnil]
    simp
  · intro d k0 val0 rest hcons hmem
    show updateConfigSome d v = _
    unfold updateConfigSome
    rw [if_neg (fun hc => hmem ((any_key_mem _ _).mp hc)), hcons]

/-- Witness for C7 at concrete documents: all four branches. -/
theorem c7_amended_witness :
    (updateConfig none (toL "2.0.0")
        = ⟨CfgRes.skippedMissingFile, none, [CfgMsg.warnNotFound]⟩) ∧
    (updateConfig (some ⟨some [(YKey.strK (toL "2.0.0"), [(toL "folder", toL "all")])]⟩)
        (toL "2.0.0")
        = ⟨CfgRes.skippedAlready,
            some ⟨some [(YKey.strK (toL "2.0.0"), [(toL "folder", toL "all")])]⟩,
            [CfgMsg.skipAlready]⟩) ∧
    (updateConfig (some ⟨some []⟩) (toL "2.0.0")
        = ⟨CfgRes.skippedNoVersions, some ⟨some []⟩, [CfgMsg.warnNoVersions]⟩) ∧
    (updateConfig (some ⟨some [(YKey.strK (toL "1.0.0"), [(toL "folder", toL "all")])]⟩)
        (toL "2.0.0")
        = ⟨CfgRes.updated,
            some ⟨some [(YKey.strK (toL "2.0.0"), [(toL "folder", toL "all")]),
                        (YKey.strK (toL "1.0.0"), [(toL "folder", toL "all")])]⟩,
            [CfgMsg.infoAdded]⟩) := by
  refine ⟨(c7_amended_theorem (toL "2.0.0")).1,
    (c7_amended_theorem (toL "2.0.0")).2.1 _ (by decide),
    (c7_amended_theorem (toL "2.0.0")).2.2.1 _ (by decide),
    (c7_amended_theorem (toL "2.0.0")).2.2.2 _ _ _ _ rfl (by decide)⟩

/-! ## Lemmas about the vcpkg.json editor -/

theorem getVal_append (k : List Char) (a b : List (List Char × JVal)) :
    getVal k (a ++ b)
      = match getVal k a with
        | some x => some x
        | none => getVal k b := by
  induction a with
  | nil => simp [getVal]
  | cons hd tl ih =>
    obtain ⟨k', x⟩ := hd
    by_cases hk : k' = k
    · simp [getVal, hk]
    · simp [getVal, hk, ih]

theorem getVal_none_of_not_mem (k : List Char) (a : List (List Char × JVal))
    (h : k ∉ a.map Prod.fst) : getVal k a = none := by
  induction a with
  | nil => rfl
  | cons hd tl ih =>
    obtain ⟨k', x⟩ := hd
    simp only [List.map_cons, List.mem_cons] at h
    push_neg at h
    simp only [getVal, if_neg (fun hc : k' = k => h.1 hc.symm)]
    exact ih h.2

theorem getVal_setVersion_mem (v : List Char) (doc : List (List Char × JVal))
    (h : toL "version" ∈ doc.map Prod.fst) :
    getVal (toL "version")
        (doc.map fun p => if p.1 = toL "version" then (toL "version", JVal.jstr v) else p)
      = some (JVal.jstr v) := by
  induction doc with
  | nil => simp at h
  | cons hd tl ih =>
    obtain ⟨k', x⟩ := hd
    by_cases hk : k' = toL "version"
    · subst hk
      simp [getVal]
    · rw [List.map_cons]
      have hhd : (if (k', x).1 = toL "version" then (toL "version", JVal.jstr v) else (k', x))
          = (k', x) := by simp [hk]
      rw [hhd]
      show (if k' = toL "version" then some x else _) = _
      rw [if_neg hk]
      apply ih
      simp only [List.map_cons, List.mem_cons] at h
      rcases h with h | h
      · exact absurd h.symm hk
      · exact h

theorem getVal_setVersion_other (v k : List Char) (hk : k ≠ toL "version")
    (doc : List (List Char × JVal)) :
    getVal k
        (doc.map fun p => if p.1 = toL "version" then (toL "version", JVal.jstr v) else p)
      = getVal k doc := by
  induction doc with
  | nil => rfl
  | cons hd tl ih =>
    obtain ⟨k', x⟩ := hd
    by_cases hver : k' = toL "version"
    · rw [List.map_cons]
      have hhd : (if (k', x).1 = toL "version" then (toL "version", JVal.jstr v) else (k', x))
          = (toL "version", JVal.jstr v) := by simp [hver]
      rw [hhd]
      show (if toL "version" = k then some (JVal.jstr v) else _) = _
      rw [if_neg (fun hc => hk hc.symm), ih]
      show _ = (if k' = k then some x else getVal k tl)
      rw [if_neg (fun hc : k' = k => hk (hc.symm.trans hver))]
    · rw [List.map_cons]
      have hhd : (if (k', x).1 = toL "version" then (toL "version", JVal.jstr v) else (k', x))
          = (k', x) := by simp [hver]
      rw [hhd]
      show (if k' = k then some x else _) = _
      by_cases hkk : k' = k
      · rw [if_pos hkk]
        show _ = (if k' = k then some x else getVal k tl)
        rw [if_pos hkk]
      · rw [if_neg hkk, ih]
        show _ = (if k' = k then some x else getVal k tl)
        rw [if_neg hkk]

/-- Claim C9 (confirmed): `update_vcpkg_json` gives the top-level `version`
field the new value and leaves every other top-level key bound to the same
value it had before. -/
theorem c9_theorem (doc : List (List Char × JVal)) (v : List Char) :
    getVal (toL "version") (updateVcpkgJson doc v) = some (JVal.jstr v) ∧
    ∀ k, k ≠ toL "version" → getVal k (updateVcpkgJson doc v) = getVal k doc := by
  constructor
  · unfold updateVcpkgJson
    by_cases hany : (doc.any fun p => decide (p.1 = toL "version")) = true
    · rw [if_pos hany]
      exact getVal_setVersion_mem v doc ((any_key_mem _ _).mp hany)
    · rw [if_neg hany]
      rw [getVal_append]
      have hnm : toL "version" ∉ doc.map Prod.fst := fun hm =>
        hany ((any_key_mem _ _).mpr hm)
      rw [getVal_none_of_not_mem _ _ hnm]
      simp [getVal]
  · intro k hk
    unfold updateVcpkgJson
    by_cases hany : (doc.any fun p => decide (p.1 = toL "version")) = true
    · rw [if_pos hany]
      exact getVal_setVersion_other v k hk doc
    · rw [if_neg hany]
      rw [getVal_append]
      cases hgv : getVal k doc with
      | none =>
        simp only [getVal, if_neg (fun hc : (toL "version") = k => hk hc.symm)]
      | some x => simp

/-- Witness for C9: no hypotheses; instantiate at a concrete document. -/
theorem c9_witness :
    getVal (toL "version")
        (updateVcpkgJson
          [(toL "name", JVal.jstr (toL "cpptrace")),
           (toL "version", JVal.jstr (toL "1.0.0")),
           (toL "dependencies", JVal.jarr [JVal.jstr (toL "fmt")])]
          (toL "1.0.1"))
      = some (JVal.jstr (toL "1.0.1")) ∧
    getVal (toL "name")
        (updateVcpkgJson
          [(toL "name", JVal.jstr (toL "cpptrace")),
           (toL "version", JVal.jstr (toL "1.0.0")),
           (toL "dependencies", JVal.jarr [JVal.jstr (toL "fmt")])]
          (toL "1.0.1"))
      = getVal (toL "name")
          [(toL "name", JVal.jstr (toL "cpptrace")),
           (toL "version", JVal.jstr (toL "1.0.0")),
           (toL "dependencies", JVal.jarr [JVal.jstr (toL "fmt")])] :=
  ⟨(c9_theorem _ (toL "1.0.1")).1,
   (c9_theorem _ (toL "1.0.1")).2 (toL "name") (by decide)⟩

/-! ## Lemmas about the workflow drivers -/

theorem finishCommit_eq (t : List Ev) (a : ConanArgs) (w : ConanWorld) :
    finishCommit t a w =
      (t ++ [Ev.gitAdd, Ev.gitCommit, Ev.gitPushBranch] ++
        (if a.noPr = false ∧ w.ghAvailable = true then [Ev.createPr] else []),
       ExitSt.ok) := by
  unfold finishCommit
  by_cases hp : a.noPr <;> by_cases hg : w.ghAvailable <;> simp [hp, hg]

theorem conanMain_reach (a : ConanArgs) (w : ConanWorld) (u : List Char)
    (hcd : w.conandataExists = true) (hurl : urlOf a w = DRes.ok u) :
    conanMain a w = conanMainWithUrl a w u := by
  unfold conanMain
  rw [hcd, hurl]
  rfl

theorem conanMainWithUrl_already (a : ConanArgs) (w : ConanWorld) (u : List Char)
    (hnet : w.netOk = true) (hgit : w.gitOk = true)
    (hres : (updateConandata w.conandata a.version u w.shaHex).res = UpdRes.alreadyPresent) :
    conanMainWithUrl a w u = (Ev.netFetchSha :: gitFlowTrace, ExitSt.ok) := by
  unfold conanMainWithUrl
  rw [hnet, hgit, hres]
  simp

/-- Claim C5 (counterexample to the claim as stated): in the vcpkg variant
an invocation whose requested version is already the recorded `version` of
vcpkg.json does not abort before the commit stage — the files are rewritten
and `git commit` runs. -/
theorem c5_counterexample :
    getVal (toL "version")
        (VcpkgWorld.mk (some (toL "o/r")) [(toL "version", JVal.jstr (toL "1.2.3"))]
          [] true true true true false).vcpkgJson
      = some (JVal.jstr (toL "1.2.3")) ∧
    Ev.editVcpkgJson ∈ (vcpkgMain (toL "1.2.3")
        (VcpkgWorld.mk (some (toL "o/r")) [(toL "version", JVal.jstr (toL "1.2.3"))]
          [] true true true true false)).1 ∧
    Ev.gitCommit ∈ (vcpkgMain (toL "1.2.3")
        (VcpkgWorld.mk (some (toL "o/r")) [(toL "version", JVal.jstr (toL "1.2.3"))]
          [] true true true true false)).1 := by
  refine ⟨rfl, ?_, ?_⟩ <;> decide

/-- Claim C5 (amended): in the conan variant, an invocation whose version is
already recorded aborts cleanly after the already-present check — exit code
zero, no file write, no `git add`/`git commit`, no branch push.  The vcpkg
variant has no presence check: whenever an invocation reaches the edit
stage, both file edits and the first `git commit` always run, even when the
requested version is already the recorded one. -/
theorem c5_amended_theorem :
    (∀ (a : ConanArgs) (w : ConanWorld) (u : List Char),
        w.conandataExists = true → urlOf a w = DRes.ok u →
        w.netOk = true → w.gitOk = true →
        YKey.strK a.version ∈ (w.conandata.sources.getD []).map Prod.fst →
        conanMain a w = (Ev.netFetchSha :: gitFlowTrace, ExitSt.ok) ∧
        Ev.gitCommit ∉ (conanMain a w).1 ∧
        Ev.gitAdd ∉ (conanMain a w).1 ∧
        Ev.editConandata ∉ (conanMain a w).1 ∧
        Ev.gitPushBranch ∉ (conanMain a w).1) ∧
    (∀ (v : List Char) (w : VcpkgWorld),
        w.gitOk = true → w.repoFound.isSome = true → w.netOk = true →
        getVal (toL "version") w.vcpkgJson = some (JVal.jstr v) →
        Ev.editVcpkgJson ∈ (vcpkgMain v w).1 ∧
        Ev.editPortfile ∈ (vcpkgMain v w).1 ∧
        Ev.gitCommit ∈ (vcpkgMain v w).1) := by
  constructor
  · intro a w u hcd hurl hnet hgit hmem
    have hres : (updateConandata w.conandata a.version u w.shaHex).res
        = UpdRes.alreadyPresent := by
      rw [updateConandata_already w.conandata a.version u w.shaHex hmem]
    have hmain : conanMain a w = (Ev.netFetchSha :: gitFlowTrace, ExitSt.ok) := by
      rw [conanMain_reach a w u hcd hurl, conanMainWithUrl_already a w u hnet hgit hres]
    refine ⟨hmain, ?_, ?_, ?_, ?_⟩ <;> rw [hmain] <;> decide
  · intro v w hgit hrf hnet _hrec
    cases hw : w.repoFound with
    | none => rw [hw] at hrf; simp at hrf
    | some repo =>
      by_cases hi : w.installOk = false <;> by_cases ha : w.addVersionOk = false <;>
        by_cases hg : w.ghAvailable = true <;>
        · simp [vcpkgMain, hgit, hw, hnet, hi, ha, hg]

/-- Witness for C5: both conjuncts instantiated at concrete environments. -/
theorem c5_amended_witness :
    (conanMain (ConanArgs.mk none (toL "1.0.0") true true)
        (ConanWorld.mk true
          (Conandata.mk (some [(YKey.strK (toL "1.0.0"),
            ⟨toL "https://x/archive/v1.0.0.tar.gz", toL "aa"⟩)]))
          none (toL "bb") true true true true)
      = (Ev.netFetchSha :: gitFlowTrace, ExitSt.ok)) ∧
    (Ev.gitCommit ∈ (vcpkgMain (toL "1.0.0")
        (VcpkgWorld.mk (some (toL "o/r")) [(toL "version", JVal.jstr (toL "1.0.0"))]
          [] true true true true true)).1) := by
  constructor
  · exact (c5_amended_theorem.1
      (ConanArgs.mk none (toL "1.0.0") true true)
      (ConanWorld.mk true
        (Conandata.mk (some [(YKey.strK (toL "1.0.0"),
          ⟨toL "https://x/archive/v1.0.0.tar.gz", toL "aa"⟩)]))
        none (toL "bb") true true true true)
      (toL "https://x/archive/v1.0.0.tar.gz")
      rfl (by decide) rfl rfl (by decide)).1
  · exact (c5_amended_theorem.2 (toL "1.0.0")
      (VcpkgWorld.mk (some (toL "o/r")) [(toL "version", JVal.jstr (toL "1.0.0"))]
        [] true true true true true)
      rfl rfl rfl rfl).2.2

theorem conanMainWithUrl_fresh_fail (a : ConanArgs) (w : ConanWorld) (u : List Char)
    (hnet : w.netOk = true) (hgit : w.gitOk = true)
    (hres : (updateConandata w.conandata a.version u w.shaHex).res = UpdRes.added)
    (hnb : a.noBuild = false) (hb : w.buildOk = false) :
    conanMainWithUrl a w u =
      ((Ev.netFetchSha :: gitFlowTrace) ++ Ev.editConandata ::
        ((if (updateConfig w.config a.version).res = CfgRes.updated then [Ev.editConfig]
          else []) ++ [Ev.build]), ExitSt.err) := by
  unfold conanMainWithUrl
  rw [hnet, hgit, hres, hnb, hb]
  simp

theorem conanMainWithUrl_fresh_ok (a : ConanArgs) (w : ConanWorld) (u : List Char)
    (hnet : w.netOk = true) (hgit : w.gitOk = true)
    (hres : (updateConandata w.conandata a.version u w.shaHex).res = UpdRes.added)
    (hnb : a.noBuild = false) (hb : w.buildOk = true) :
    conanMainWithUrl a w u =
      finishCommit ((Ev.netFetchSha :: gitFlowTrace) ++ Ev.editConandata ::
        ((if (updateConfig w.config a.version).res = CfgRes.updated then [Ev.editConfig]
          else []) ++ [Ev.build])) a w := by
  unfold conanMainWithUrl
  rw [hnet, hgit, hres, hnb, hb]
  simp

/-- Claim C4 (counterexample to the claim as stated): in the vcpkg variant
the metadata edit is committed **before** the build step, so an invocation
whose build (`vcpkg install`) fails has already created the bump commit:
the commit event precedes the build event and the run exits non-zero. -/
theorem c4_counterexample :
    (vcpkgMain (toL "1.0.1")
        (VcpkgWorld.mk (some (toL "o/r")) [] [] true true false true true)).2
      = ExitSt.err ∧
    (VcpkgWorld.mk (some (toL "o/r")) [] [] true true false true true).installOk = false ∧
    Ev.gitCommit ∈ ((vcpkgMain (toL "1.0.1")
        (VcpkgWorld.mk (some (toL "o/r")) [] [] true true false true true)).1.takeWhile
          (fun e => e ≠ Ev.vcpkgInstall)) ∧
    Ev.vcpkgInstall ∈ (vcpkgMain (toL "1.0.1")
        (VcpkgWorld.mk (some (toL "o/r")) [] [] true true false true true)).1 := by
  refine ⟨?_, ?_, ?_, ?_⟩ <;> decide

/-- Claim C4 (amended): in the conan variant the optional build runs after
the metadata edit and before any commit, and a failed build aborts with a
dirty tree, nothing committed or pushed.  In the vcpkg variant the first
`git commit` precedes the build, so a failed build leaves the bump commit
already created; the push and the version-database commit do not run. -/
theorem c4_amended_theorem :
    (∀ (a : ConanArgs) (w : ConanWorld) (u : List Char),
        w.conandataExists = true → urlOf a w = DRes.ok u →
        w.netOk = true → w.gitOk = true →
        YKey.strK a.version ∉ (w.conandata.sources.getD []).map Prod.fst →
        a.noBuild = false →
        (∃ t1 t2, (conanMain a w).1 = t1 ++ Ev.build :: t2 ∧
          Ev.editConandata ∈ t1 ∧ Ev.gitCommit ∉ t1 ∧ Ev.gitAdd ∉ t1 ∧
          Ev.gitPushBranch ∉ t1) ∧
        (w.buildOk = false →
          (conanMain a w).2 = ExitSt.err ∧
          Ev.gitCommit ∉ (conanMain a w).1 ∧
          Ev.gitAdd ∉ (conanMain a w).1 ∧
          Ev.gitPushBranch ∉ (conanMain a w).1 ∧
          Ev.editConandata ∈ (conanMain a w).1)) ∧
    (∀ (v : List Char) (w : VcpkgWorld),
        w.gitOk = true → w.repoFound.isSome = true → w.netOk = true →
        w.installOk = false →
        (vcpkgMain v w).2 = ExitSt.err ∧
        Ev.gitPushBranch ∉ (vcpkgMain v w).1 ∧
        Ev.vcpkgAddVersion ∉ (vcpkgMain v w).1 ∧
        Ev.gitCommit ∈ ((vcpkgMain v w).1.takeWhile (fun e => e ≠ Ev.vcpkgInstall)) ∧
        Ev.vcpkgInstall ∈ (vcpkgMain v w).1) := by
  constructor
  · intro a w u hcd hurl hnet hgit hfresh hnb
    have hres : (updateConandata w.conandata a.version u w.shaHex).res = UpdRes.added := by
      rw [updateConandata_fresh w.conandata a.version u w.shaHex hfresh]
    by_cases hcfg : (updateConfig w.config a.version).res = CfgRes.updated
    · by_cases hb : w.buildOk = false
      · have hmain : conanMain a w =
            ((Ev.netFetchSha :: gitFlowTrace) ++ Ev.editConandata ::
              ([Ev.editConfig] ++ [Ev.build]), ExitSt.err) := by
          rw [conanMain_reach a w u hcd hurl,
            conanMainWithUrl_fresh_fail a w u hnet hgit hres hnb hb, if_pos hcfg]
        constructor
        · refine ⟨(Ev.netFetchSha :: gitFlowTrace) ++ [Ev.editConandata, Ev.editConfig],
            [], ?_, by decide, by decide, by decide, by decide⟩
          rw [hmain]
          decide
        · intro _
          rw [hmain]
          exact ⟨rfl, by decide, by decide, by decide, by decide⟩
      · have hb' : w.buildOk = true := by
          cases hbv : w.buildOk
          · exact absurd hbv hb
          · rfl
        have hmain : conanMain a w =
            finishCommit ((Ev.netFetchSha :: gitFlowTrace) ++ Ev.editConandata ::
              ([Ev.editConfig] ++ [Ev.build])) a w := by
          rw [conanMain_reach a w u hcd hurl,
            conanMainWithUrl_fresh_ok a w u hnet hgit hres hnb hb', if_pos hcfg]
        constructor
        · refine ⟨(Ev.netFetchSha :: gitFlowTrace) ++ [Ev.editConandata, Ev.editConfig],
            [Ev.gitAdd, Ev.gitCommit, Ev.gitPushBranch] ++
              (if a.noPr = false ∧ w.ghAvailable = true then [Ev.createPr] else []),
            ?_, by decide, by decide, by decide, by decide⟩
          rw [hmain, finishCommit_eq]
          simp
        · intro hbf
          rw [hbf] at hb'
          cases hb'
    · by_cases hb : w.buildOk = false
      · have hmain : conanMain a w =
            ((Ev.netFetchSha :: gitFlowTrace) ++ Ev.editConandata ::
              ([] ++ [Ev.build]), ExitSt.err) := by
          rw [conanMain_reach a w u hcd hurl,
            conanMainWithUrl_fresh_fail a w u hnet hgit hres hnb hb, if_neg hcfg]
        constructor
        · refine ⟨(Ev.netFetchSha :: gitFlowTrace) ++ [Ev.editConandata],
            [], ?_, by decide, by decide, by decide, by decide⟩
          rw [hmain]
          decide
        · intro _
          rw [hmain]
          exact ⟨rfl, by decide, by decide, by decide, by decide⟩
      · have hb' : w.buildOk = true := by
          cases hbv : w.buildOk
          · exact absurd hbv hb
          · rfl
        have hmain : conanMain a w =
            finishCommit ((Ev.netFetchSha :: gitFlowTrace) ++ Ev.editConandata ::
              ([] ++ [Ev.build])) a w := by
          rw [conanMain_reach a w u hcd hurl,
            conanMainWithUrl_fresh_ok a w u hnet hgit hres hnb hb', if_neg hcfg]
        constructor
        · refine ⟨(Ev.netFetchSha :: gitFlowTrace) ++ [Ev.editConandata],
            [Ev.gitAdd, Ev.gitCommit, Ev.gitPushBranch] ++
              (if a.noPr = false ∧ w.ghAvailable = true then [Ev.createPr] else []),
            ?_, by decide, by decide, by decide, by decide⟩
          rw [hmain, finishCommit_eq]
          simp
        · intro hbf
          rw [hbf] at hb'
          cases hb'
  · intro v w hgit hrf hnet hi
    cases hw : w.repoFound with
    | none => rw [hw] at hrf; simp at hrf
    | some repo =>
      have hmain : vcpkgMain v w =
          ([Ev.gitCheckoutMaster, Ev.gitFetch, Ev.gitRebase, Ev.gitPush,
            Ev.gitCheckoutBranch, Ev.netFetchSha, Ev.editVcpkgJson, Ev.editPortfile,
            Ev.gitCommit, Ev.rmInstalled, Ev.vcpkgInstall], ExitSt.err) := by
        simp [vcpkgMain, hgit, hw, hnet, hi, gitFlowTrace]
      rw [hmain]
      refine ⟨rfl, by decide, by decide, by decide, by decide⟩

/-- Witness for C4: the conan conjunct at a fresh concrete environment with
a failing build, and the vcpkg conjunct at a failing `vcpkg install`. -/
theorem c4_amended_witness :
    ((conanMain (ConanArgs.mk (some (toL "https://github.com/o/r")) (toL "1.0.1") false true)
        (ConanWorld.mk true (Conandata.mk (some [])) none (toL "bb")
          true true false true)).2 = ExitSt.err ∧
      Ev.gitCommit ∉ (conanMain
        (ConanArgs.mk (some (toL "https://github.com/o/r")) (toL "1.0.1") false true)
        (ConanWorld.mk true (Conandata.mk (some [])) none (toL "bb")
          true true false true)).1) ∧
    (vcpkgMain (toL "1.0.1")
        (VcpkgWorld.mk (some (toL "o/r")) [] [] true true false true true)).2
      = ExitSt.err := by
  constructor
  · have h := (c4_amended_theorem.1
      (ConanArgs.mk (some (toL "https://github.com/o/r")) (toL "1.0.1") false true)
      (ConanWorld.mk true (Conandata.mk (some [])) none (toL "bb") true true false true)
      (toL "https://github.com/o/r/archive/refs/tags/v1.0.1.tar.gz")
      rfl (by decide) rfl rfl (by decide) rfl).2 rfl
    exact ⟨h.1, h.2.1⟩
  · exact (c4_amended_theorem.2 (toL "1.0.1")
      (VcpkgWorld.mk (some (toL "o/r")) [] [] true true false true true)
      rfl rfl rfl rfl).1

/-! ## Claim C8: document-level URL derivation -/

theorem deriveUrlCore_ne_noSources (u v : List Char) :
    deriveUrlCore u v ≠ DRes.errNoSources := by
  unfold deriveUrlCore
  cases ht : searchVer true u with
  | some r =>
    obtain ⟨i, hv, n⟩ := r
    simp
  | none =>
    cases hf : searchVer false u with
    | none => simp
    | some r =>
      obtain ⟨i, hv, n⟩ := r
      simp

/-- Claim C8 (confirmed): the URL deriver takes its sample URL from the
first entry of the sources mapping, and it fails — with no network event and
no file-write event having occurred, and a non-zero exit — exactly when the
sources block is absent or empty. -/
theorem c8_theorem :
    (∀ (d : Conandata) (v : List Char),
        deriveTarballUrl d v = DRes.errNoSources ↔ d.sources.getD [] = []) ∧
    (∀ (d : Conandata) (v : List Char) (k : YKey) (e : SrcEntry)
        (rest : List (YKey × SrcEntry)), d.sources = some ((k, e) :: rest) →
        deriveTarballUrl d v = deriveUrlCore e.url v) ∧
    (∀ (a : ConanArgs) (w : ConanWorld),
        w.conandataExists = true → a.repoUrl = none →
        w.conandata.sources.getD [] = [] →
        conanMain a w = ([], ExitSt.err)) := by
  refine ⟨?_, ?_, ?_⟩
  · intro d v
    cases hs : d.sources.getD [] with
    | nil => simp [deriveTarballUrl, hs]
    | cons hd tl =>
      obtain ⟨k, e⟩ := hd
      simp only [deriveTarballUrl, hs]
      constructor
      · intro hc
        exact absurd hc (deriveUrlCore_ne_noSources e.url v)
      · intro hc
        cases hc
  · intro d v k e rest h
    simp [deriveTarballUrl, h]
  · intro a w hcd hru hsrc
    have hu : urlOf a w = DRes.errNoSources := by
      unfold urlOf
      rw [hru]
      simp [deriveTarballUrl, hsrc]
    unfold conanMain
    rw [hcd, hu]
    rfl

/-- Witness for C8: the error case at an empty document and the first-entry
case at a two-entry document. -/
theorem c8_witness :
    (deriveTarballUrl (Conandata.mk none) (toL "1.0.1") = DRes.errNoSources ↔
      ((Conandata.mk none).sources.getD []) = []) ∧
    deriveTarballUrl
        (Conandata.mk (some
          [(YKey.strK (toL "1.0.0"), ⟨toL "https://x/archive/v1.0.0.tar.gz", toL "aa"⟩),
           (YKey.strK (toL "0.9.0"), ⟨toL "https://x/archive/v0.9.0.tar.gz", toL "cc"⟩)]))
        (toL "1.0.1")
      = deriveUrlCore (toL "https://x/archive/v1.0.0.tar.gz") (toL "1.0.1") ∧
    conanMain (ConanArgs.mk none (toL "1.0.1") true true)
        (ConanWorld.mk true (Conandata.mk none) none (toL "bb") true true true true)
      = ([], ExitSt.err) :=
  ⟨c8_theorem.1 (Conandata.mk none) (toL "1.0.1"),
   c8_theorem.2.1 _ (toL "1.0.1") (YKey.strK (toL "1.0.0"))
     ⟨toL "https://x/archive/v1.0.0.tar.gz", toL "aa"⟩
     [(YKey.strK (toL "0.9.0"), ⟨toL "https://x/archive/v0.9.0.tar.gz", toL "cc"⟩)] rfl,
   c8_theorem.2.2 (ConanArgs.mk none (toL "1.0.1") true true)
     (ConanWorld.mk true (Conandata.mk none) none (toL "bb") true true true true)
     rfl rfl rfl⟩

/-! ## Claim C10: the portfile digest substitution -/

theorem hex_not_ws (c : Char) (h : isHexC c = true) : isWsC c = false := by
  by_contra hw
  rw [Bool.not_eq_false] at hw
  simp only [isWsC, Bool.or_eq_true, decide_eq_true_eq] at hw
  rcases hw with ((((h1 | h1) | h1) | h1) | h1) | h1 <;> subst h1 <;>
    exact absurd h (by decide)

theorem subSha_nil (nw : List Char) : subSha nw [] = [] := by
  simp only [subSha]

theorem subSha_cons_none (nw : List Char) (x : Char) (xs : List Char)
    (h : shaMatchAt (x :: xs) = none) :
    subSha nw (x :: xs) = x :: subSha nw xs := by
  simp only [subSha]
  split
  · rename_i k hk
    rw [h] at hk
    cases hk
  · rfl

theorem subSha_cons_some (nw : List Char) (x : Char) (xs : List Char) (k : Nat)
    (h : shaMatchAt (x :: xs) = some k) :
    subSha nw (x :: xs) = toL "SHA512 " ++ nw ++ subSha nw ((x :: xs).drop k) := by
  simp only [subSha]
  split
  · rename_i k' hk
    rw [h] at hk
    cases hk
    rfl
  · rename_i hk
    rw [h] at hk
    cases hk

theorem specSubSha_nil (nw : List Char) : specSubSha nw [] = [] := by
  simp only [specSubSha]

theorem specSubSha_cons_some (nw : List Char) (x : Char) (xs : List Char) (k : Nat)
    (h : shaMatchAt (x :: xs) = some k) :
    specSubSha nw (x :: xs)
      = (x :: xs).take (k - 128) ++ nw ++ specSubSha nw ((x :: xs).drop k) := by
  simp only [specSubSha]
  split
  · rename_i k' hk
    rw [h] at hk
    cases hk
    rfl
  · rename_i hk
    rw [h] at hk
    cases hk

theorem shaMatchAt_sound (t : List Char) (k : Nat) (h : shaMatchAt t = some k) :
    ∃ ws hx b, t = toL "SHA512" ++ ws ++ hx ++ b ∧ ws ≠ [] ∧ ws.all isWsC = true ∧
      hx.length = 128 ∧ hx.all isHexC = true ∧ k = 6 + ws.length + 128 := by
  unfold shaMatchAt at h
  by_cases hl : leadsWith (toL "SHA512") t = true
  · rw [if_pos hl] at h
    simp only at h
    obtain ⟨t2, ht2⟩ := (leadsWith_iff _ _).mp hl
    by_cases hw : wsRun (t.drop 6) = 0
    · rw [if_pos hw] at h
      cases h
    · rw [if_neg hw] at h
      by_cases hh : ((((t.drop 6).drop (wsRun (t.drop 6))).take 128).length = 128 ∧
          (((t.drop 6).drop (wsRun (t.drop 6))).take 128).all isHexC = true)
      · rw [if_pos hh] at h
        have h6 : (toL "SHA512").length = 6 := rfl
        have hdrop6 : t.drop 6 = t2 := by
          rw [ht2, ← h6]
          exact List.drop_left _ _
        rw [hdrop6] at h hw hh
        refine ⟨t2.take (wsRun t2), (t2.drop (wsRun t2)).take 128,
          (t2.drop (wsRun t2)).drop 128, ?_, ?_, ?_, hh.1, hh.2, ?_⟩
        · rw [ht2, List.append_assoc, List.append_assoc]
          congr 1
          rw [List.take_append_drop 128 (t2.drop (wsRun t2)),
            List.take_append_drop (wsRun t2) t2]
        · intro hc
          rcases List.take_eq_nil_iff.mp hc with h0 | h0
          · exact hw h0
          · rw [h0] at hw
            exact hw rfl
        · exact runLen_take_all isWsC t2
        · simp only [Option.some.injEq] at h
          have hlen : (t2.take (wsRun t2)).length = wsRun t2 := by
            simp [List.length_take]
            exact runLen_le_length isWsC t2
          omega
      · rw [if_neg hh] at h
        cases h
  · rw [if_neg hl] at h
    cases h

theorem shaMatchAt_complete (ws hx b : List Char) (hws : ws ≠ [])
    (hwall : ws.all isWsC = true) (hlen : hx.length = 128) (hhex : hx.all isHexC = true) :
    shaMatchAt (toL "SHA512" ++ ws ++ hx ++ b) = some (6 + ws.length + 128) := by
  have h6 : (toL "SHA512").length = 6 := rfl
  have hl : leadsWith (toL "SHA512") (toL "SHA512" ++ ws ++ hx ++ b) = true := by
    rw [leadsWith_iff]
    exact ⟨ws ++ (hx ++ b), by simp⟩
  have hdrop : (toL "SHA512" ++ ws ++ hx ++ b).drop 6 = ws ++ (hx ++ b) := by
    rw [List.append_assoc, List.append_assoc, ← h6, List.drop_left]
  have hstop : ∀ c cs, hx ++ b = c :: cs → isWsC c = false := by
    intro c cs hc
    cases hx with
    | nil => simp at hlen
    | cons hc0 htl =>
      rw [List.cons_append] at hc
      cases hc
      simp only [List.all_cons, Bool.and_eq_true] at hhex
      exact hex_not_ws c hhex.1
  have hwsrun : wsRun (ws ++ (hx ++ b)) = ws.length :=
    runLen_split isWsC ws (hx ++ b) hwall hstop
  have hne : ¬ ws.length = 0 := by
    intro hc
    exact hws (List.length_eq_zero.mp hc)
  have hdropws : (ws ++ (hx ++ b)).drop ws.length = hx ++ b := List.drop_left _ _
  have htake : (hx ++ b).take 128 = hx := by
    rw [← hlen]
    exact List.take_left _ _
  unfold shaMatchAt
  rw [if_pos hl]
  simp only [hdrop, hwsrun, hdropws, htake]
  rw [if_neg hne, if_pos ⟨hlen, hhex⟩]

theorem hasShaOcc_length (c : List Char) (h : HasShaOcc c) : 135 ≤ c.length := by
  obtain ⟨a, t, rfl, ws, hx, b, rfl, hws, _, hlen, _⟩ := h
  have hw1 : 1 ≤ ws.length := List.length_pos.mpr hws
  have h6 : (toL "SHA512").length = 6 := rfl
  simp only [List.length_append, hlen, h6]
  omega

/-- Claim C10 (counterexample to the claim as stated): a portfile whose
`SHA512` token is separated from the digest by a newline is not left
byte-for-byte unchanged outside the digest: the matched whitespace is
rewritten to a single space. -/
theorem c10_counterexample :
    subSha (toL "ff") (toL "SHA512" ++ ['\n'] ++ List.replicate 128 '0')
        = toL "SHA512 " ++ toL "ff" ∧
    specSubSha (toL "ff") (toL "SHA512" ++ ['\n'] ++ List.replicate 128 '0')
        = toL "SHA512" ++ ['\n'] ++ toL "ff" ∧
    subSha (toL "ff") (toL "SHA512" ++ ['\n'] ++ List.replicate 128 '0')
        ≠ specSubSha (toL "ff") (toL "SHA512" ++ ['\n'] ++ List.replicate 128 '0') := by
  have hcons : toL "SHA512" ++ ['\n'] ++ List.replicate 128 '0'
      = 'S' :: (toL "HA512" ++ ['\n'] ++ List.replicate 128 '0') := by decide
  have hm : shaMatchAt ('S' :: (toL "HA512" ++ ['\n'] ++ List.replicate 128 '0'))
      = some 135 := by decide
  have hdrop : ('S' :: (toL "HA512" ++ ['\n'] ++ List.replicate 128 '0')).drop 135
      = [] := by decide
  have htake : ('S' :: (toL "HA512" ++ ['\n'] ++ List.replicate 128 '0')).take (135 - 128)
      = toL "SHA512" ++ ['\n'] := by decide
  have h1 : subSha (toL "ff") (toL "SHA512" ++ ['\n'] ++ List.replicate 128 '0')
      = toL "SHA512 " ++ toL "ff" := by
    rw [hcons, subSha_cons_some _ _ _ 135 hm, hdrop, subSha_nil]
    simp
  have h2 : specSubSha (toL "ff") (toL "SHA512" ++ ['\n'] ++ List.replicate 128 '0')
      = toL "SHA512" ++ ['\n'] ++ toL "ff" := by
    rw [hcons, specSubSha_cons_some _ _ _ 135 hm, hdrop, specSubSha_nil, htake]
    simp
  refine ⟨h1, h2, ?_⟩
  rw [h1, h2]
  decide

/-- Claim C10 (amended): the editor replaces each occurrence of `SHA512`
followed by whitespace and 128 hex digits with `SHA512`, a **single space**,
and the new digest (normalizing the matched whitespace); all content outside
the matched spans is byte-for-byte unchanged; and with no occurrence the
content is written back unchanged with no error. -/
theorem c10_amended_theorem (nw : List Char) :
    (∀ c : List Char, ¬ HasShaOcc c → subSha nw c = c) ∧
    (∀ a ws hx b : List Char,
        (∀ a1 a2, a = a1 ++ a2 → a2 ≠ [] →
          shaMatchAt (a2 ++ (toL "SHA512" ++ ws ++ hx ++ b)) = none) →
        ws ≠ [] → ws.all isWsC = true → hx.length = 128 → hx.all isHexC = true →
        subSha nw (a ++ (toL "SHA512" ++ ws ++ hx ++ b))
          = a ++ (toL "SHA512 " ++ nw ++ subSha nw b)) := by
  constructor
  · intro c
    induction c with
    | nil => intro _; exact subSha_nil nw
    | cons x xs ih =>
      intro h
      have hnm : shaMatchAt (x :: xs) = none := by
        cases hsm : shaMatchAt (x :: xs) with
        | none => rfl
        | some k =>
          obtain ⟨ws, hx, b, heq, hws, hwall, hlen, hhex, _⟩ :=
            shaMatchAt_sound _ _ hsm
          exact absurd ⟨[], x :: xs, by simp, ws, hx, b, heq, hws, hwall, hlen, hhex⟩ h
      rw [subSha_cons_none _ _ _ hnm]
      rw [ih (fun ⟨a, t, heq, hocc⟩ => h ⟨x :: a, t, by rw [heq, List.cons_append], hocc⟩)]
  · intro a
    induction a with
    | nil =>
      intro ws hx b _ hws hwall hlen hhex
      have hc : toL "SHA512" ++ ws ++ hx ++ b
          = 'S' :: (toL "HA512" ++ ws ++ hx ++ b) := by
        have : toL "SHA512" = 'S' :: toL "HA512" := rfl
        rw [this]
        simp
      have hm := shaMatchAt_complete ws hx b hws hwall hlen hhex
      rw [hc] at hm
      have hlen2 : (toL "SHA512" ++ ws ++ hx).length = 6 + ws.length + 128 := by
        have h6 : (toL "SHA512").length = 6 := rfl
        simp only [List.length_append, hlen, h6]
      have hdrop : ('S' :: (toL "HA512" ++ ws ++ hx ++ b)).drop (6 + ws.length + 128)
          = b := by
        have hre : 'S' :: (toL "HA512" ++ ws ++ hx ++ b)
            = (toL "SHA512" ++ ws ++ hx) ++ b := by
          have : toL "SHA512" = 'S' :: toL "HA512" := rfl
          rw [this]
          simp
        rw [hre, ← hlen2, List.drop_left]
      rw [List.nil_append, hc, subSha_cons_some _ _ _ _ hm, hdrop, List.nil_append]
    | cons x a' ih =>
      intro ws hx b hnone hws hwall hlen hhex
      have hn : shaMatchAt ((x :: a') ++ (toL "SHA512" ++ ws ++ hx ++ b)) = none :=
        hnone [] (x :: a') (by simp) (by simp)
      rw [List.cons_append] at hn
      rw [List.cons_append, subSha_cons_none _ _ _ hn]
      rw [ih ws hx b
        (fun a1 a2 heq hne => hnone (x :: a1) a2 (by rw [heq, List.cons_append]) hne)
        hws hwall hlen hhex]
      simp

/-- Witness for C10: the no-occurrence case on a short content and the
single-occurrence case at the head of the file. -/
theorem c10_amended_witness :
    subSha (toL "ff") (toL "SHA512 is fine") = toL "SHA512 is fine" ∧
    subSha (toL "ff")
        ([] ++ (toL "SHA512" ++ [' '] ++ List.replicate 128 'a' ++ []))
      = [] ++ (toL "SHA512 " ++ toL "ff" ++ subSha (toL "ff") []) := by
  constructor
  · refine (c10_amended_theorem (toL "ff")).1 (toL "SHA512 is fine") ?_
    intro h
    have := hasShaOcc_length _ h
    revert this
    decide
  · refine (c10_amended_theorem (toL "ff")).2 [] [' '] (List.replicate 128 'a') [] ?_
      (by decide) (by decide) (by decide) (by decide)
    intro a1 a2 heq hne
    exfalso
    rcases List.append_eq_nil.mp heq.symm with ⟨_, h2⟩
    exact hne h2

/-! ## Character-class facts and alignment lemmas for the version pattern -/

theorem digit_isVerChar (c : Char) (h : c.isDigit = true) : isVerChar c = true := by
  simp [isVerChar, Char.isAlphanum, h]

theorem digit_ne_of (c x : Char) (h : c.isDigit = true) (hx : x.isDigit = false) :
    c ≠ x := by
  intro hc
  subst hc
  rw [h] at hx
  cases hx

theorem all_digit_verChar (l : List Char) (h : l.all Char.isDigit = true) :
    l.all isVerChar = true := by
  rw [List.all_eq_true] at h ⊢
  exact fun c hc => digit_isVerChar c (h c hc)

theorem all_take_of_all (f : Char → Bool) (l : List Char) (n : Nat)
    (h : l.all f = true) : (l.take n).all f = true := by
  rw [List.all_eq_true] at h ⊢
  exact fun c hc => h c (List.mem_of_mem_take hc)

/-- Two decompositions `run ++ '.' :: X` of the same list, where both runs
avoid `'.'`, coincide. -/
theorem alignRun (f : Char → Bool) (hdot : f '.' = false) :
    ∀ (A B X Y : List Char), A.all f = true → B.all f = true →
      A ++ '.' :: X = B ++ '.' :: Y → A = B ∧ X = Y := by
  intro A
  induction A with
  | nil =>
    intro B X Y _ hB heq
    cases B with
    | nil =>
      simp only [List.nil_append, List.cons.injEq] at heq
      exact ⟨rfl, heq.2⟩
    | cons b B' =>
      simp only [List.nil_append, List.cons_append, List.cons.injEq] at heq
      simp only [List.all_cons, Bool.and_eq_true] at hB
      rw [← heq.1] at hB
      rw [hdot] at hB
      cases hB.1
  | cons a A' ih =>
    intro B X Y hA hB heq
    cases B with
    | nil =>
      simp only [List.cons_append, List.nil_append, List.cons.injEq] at heq
      simp only [List.all_cons, Bool.and_eq_true] at hA
      rw [heq.1] at hA
      rw [hdot] at hA
      cases hA.1
    | cons b B' =>
      simp only [List.cons_append, List.cons.injEq] at heq
      simp only [List.all_cons, Bool.and_eq_true] at hA hB
      obtain ⟨hab, htl⟩ := heq
      obtain ⟨hAB, hXY⟩ := ih B' X Y hA.2 hB.2 htl
      exact ⟨by rw [hab, hAB], hXY⟩

theorem extAt_head (r : List Char) (h : extAt r = true) : ∃ rr, r = '.' :: rr := by
  unfold extAt at h
  rcases Bool.or_eq_true _ _ |>.mp h with h' | h'
  · obtain ⟨q, hq⟩ := (leadsWith_iff _ _).mp h'
    have : toL ".tar.gz" = '.' :: toL "tar.gz" := rfl
    rw [this] at hq
    exact ⟨toL "tar.gz" ++ q, by rw [hq]; rfl⟩
  · obtain ⟨q, hq⟩ := (leadsWith_iff _ _).mp h'
    have : toL ".zip" = '.' :: toL "zip" := rfl
    rw [this] at hq
    exact ⟨toL "zip" ++ q, by rw [hq]; rfl⟩

theorem extAt_dot_digit (d : Char) (rest : List Char) (hd : d.isDigit = true) :
    extAt ('.' :: d :: rest) = false := by
  have h7 : toL ".tar.gz" = ['.', 't', 'a', 'r', '.', 'g', 'z'] := rfl
  have h4 : toL ".zip" = ['.', 'z', 'i', 'p'] := rfl
  have hdt : (('t' : Char) = d) = False :=
    eq_false (fun hc => digit_ne_of d 't' hd (by decide) hc.symm)
  have hdz : (('z' : Char) = d) = False :=
    eq_false (fun hc => digit_ne_of d 'z' hd (by decide) hc.symm)
  unfold extAt
  rw [h7, h4]
  simp [leadsWith, hdt, hdz]

theorem extAt_cons_ne_dot (c : Char) (rest : List Char) (hc : ¬ c = '.') :
    extAt (c :: rest) = false := by
  have h7 : toL ".tar.gz" = ['.', 't', 'a', 'r', '.', 'g', 'z'] := rfl
  have h4 : toL ".zip" = ['.', 'z', 'i', 'p'] := rfl
  have hcd : (('.' : Char) = c) = False := eq_false (fun hcc => hc hcc.symm)
  unfold extAt
  rw [h7, h4]
  simp [leadsWith, hcd]

theorem ver3_cons (w : List Char) (h : Ver3 w) :
    ∃ c cs, w = c :: cs ∧ c.isDigit = true := by
  obtain ⟨g1, g2, d, g3t, heq, hg1, hall1, _, _, _, _⟩ := h
  cases g1 with
  | nil => exact absurd rfl hg1
  | cons c g1' =>
    simp only [List.all_cons, Bool.and_eq_true] at hall1
    exact ⟨c, g1' ++ '.' :: (g2 ++ '.' :: (d :: g3t)), by rw [heq]; rfl, hall1.1⟩

/-- `leadsWith` of an all-non-digit pattern is insensitive to everything at
and after a digit that follows the common part. -/
theorem leadsWith_digit_stable (p : List Char) (hp : ∀ ch ∈ p, ch.isDigit = false) :
    ∀ (y : List Char) (x : Char) (xs : List Char) (x' : Char) (xs' : List Char),
      x.isDigit = true → x'.isDigit = true →
      leadsWith p (y ++ x :: xs) = leadsWith p (y ++ x' :: xs') := by
  induction p with
  | nil => intro y x xs x' xs' _ _; rfl
  | cons pc pt ih =>
    intro y x xs x' xs' hx hx'
    cases y with
    | nil =>
      simp only [List.nil_append, leadsWith]
      have h1 : (pc = x) = False :=
        eq_false (fun hc => by
          have := hp pc (by simp)
          rw [hc, hx] at this
          cases this)
      have h2 : (pc = x') = False :=
        eq_false (fun hc => by
          have := hp pc (by simp)
          rw [hc, hx'] at this
          cases this)
      simp [h1, h2]
    | cons yc yt =>
      simp only [List.cons_append, leadsWith]
      congr 1
      exact ih (fun ch hch => hp ch (by simp [hch])) yt x xs x' xs' hx hx'

theorem extAt_digit_stable (y : List Char) (x : Char) (xs : List Char)
    (x' : Char) (xs' : List Char) (hx : x.isDigit = true) (hx' : x'.isDigit = true) :
    extAt (y ++ x :: xs) = extAt (y ++ x' :: xs') := by
  have h7 : ∀ ch ∈ toL ".tar.gz", ch.isDigit = false := by decide
  have h4 : ∀ ch ∈ toL ".zip", ch.isDigit = false := by decide
  unfold extAt
  rw [leadsWith_digit_stable _ h7 y x xs x' xs' hx hx',
    leadsWith_digit_stable _ h4 y x xs x' xs' hx hx']

/-! ## Soundness of the version matcher -/

theorem bestE_sound (t4 : List Char) :
    ∀ m e : Nat, bestE t4 m = some e →
      1 ≤ e ∧ e ≤ m ∧ extAt (t4.drop e) = true := by
  intro m
  induction m with
  | zero =>
    intro e h
    cases h
  | succ m' ih =>
    intro e h
    unfold bestE at h
    by_cases hx : extAt (t4.drop (m' + 1)) = true
    · rw [if_pos hx] at h
      cases h
      exact ⟨by omega, Nat.le_refl _, hx⟩
    · rw [if_neg hx] at h
      obtain ⟨h1, h2, h3⟩ := ih e h
      exact ⟨h1, by omega, h3⟩

theorem runLen_pos_head (f : Char → Bool) (t : List Char) (h : ¬ runLen f t = 0) :
    ∃ c cs, t = c :: cs ∧ f c = true := by
  cases t with
  | nil => exact absurd rfl h
  | cons c cs =>
    rw [runLen_cons] at h
    by_cases hc : f c
    · exact ⟨c, cs, rfl, hc⟩
    · rw [if_neg hc] at h
      exact absurd rfl h

theorem classRun_pos_of_digit (t : List Char) (h : ¬ digitRun t = 0) :
    1 ≤ classRun t := by
  obtain ⟨c, cs, rfl, hc⟩ := runLen_pos_head Char.isDigit t h
  show 1 ≤ runLen isVerChar (c :: cs)
  rw [runLen_cons, if_pos (digit_isVerChar c hc)]
  omega

theorem afterDots_sound (a : Bool) (t4 : List Char) (e : Nat)
    (h : afterDots a t4 = some e) :
    ¬ digitRun t4 = 0 ∧ 1 ≤ e ∧ e ≤ classRun t4 ∧
      (a = true → extAt (t4.drop e) = true) := by
  unfold afterDots at h
  by_cases h0 : digitRun t4 = 0
  · rw [if_pos h0] at h
    cases h
  · rw [if_neg h0] at h
    cases a with
    | false =>
      simp only [Bool.false_eq_true, if_false, Option.some.injEq] at h
      subst h
      exact ⟨h0, classRun_pos_of_digit t4 h0, Nat.le_refl _, fun hc => by cases hc⟩
    | true =>
      simp only [if_true] at h
      obtain ⟨h1, h2, h3⟩ := bestE_sound t4 (classRun t4) e h
      exact ⟨h0, h1, h2, fun _ => h3⟩

theorem parseVer_sound (a : Bool) (t : List Char) (n : Nat) (h : parseVer a t = some n) :
    ∃ w r, t = w ++ r ∧ Ver3 w ∧ w.length = n ∧ (a = true → extAt r = true) := by
  unfold parseVer at h
  by_cases h1 : digitRun t = 0
  · rw [if_pos h1] at h
    cases h
  · rw [if_neg h1] at h
    cases heq1 : t.drop (digitRun t) with
    | nil =>
      rw [heq1] at h
      simp [parseLevel1] at h
    | cons c1 t2 =>
      rw [heq1] at h
      simp only [parseLevel1] at h
      by_cases hc1 : c1 = '.'
      case neg =>
        rw [if_neg hc1] at h
        cases h
      case pos =>
      subst hc1
      rw [if_pos rfl] at h
      by_cases h2 : digitRun t2 = 0
      · rw [if_pos h2] at h
        cases h
      · rw [if_neg h2] at h
        cases heq2 : t2.drop (digitRun t2) with
        | nil =>
          rw [heq2] at h
          simp [parseLevel2] at h
        | cons c2 t4 =>
          rw [heq2] at h
          simp only [parseLevel2] at h
          by_cases hc2 : c2 = '.'
          case neg =>
            rw [if_neg hc2] at h
            cases h
          case pos =>
          subst hc2
          rw [if_pos rfl] at h
          cases ha : afterDots a t4 with
          | none =>
            rw [ha] at h
            cases h
          | some e =>
            rw [ha] at h
            simp only [Option.map_some', Option.some.injEq] at h
            obtain ⟨hd0, he1, he2, hext⟩ := afterDots_sound a t4 e ha
            obtain ⟨dc, t4', ht4c, hdc⟩ := runLen_pos_head Char.isDigit t4 hd0
            have hd1lt : digitRun t < t.length := by
              by_contra hh
              push_neg at hh
              rw [List.drop_eq_nil_of_le hh] at heq1
              cases heq1
            have hd2lt : digitRun t2 < t2.length := by
              by_contra hh
              push_neg at hh
              rw [List.drop_eq_nil_of_le hh] at heq2
              cases heq2
            have helen : e ≤ t4.length := Nat.le_trans he2 (runLen_le_length _ _)
            have hg1all : (t.take (digitRun t)).all Char.isDigit = true :=
              runLen_take_all _ t
            have hg1len : (t.take (digitRun t)).length = digitRun t := by
              simp [List.length_take]
              omega
            have hg2all : (t2.take (digitRun t2)).all Char.isDigit = true :=
              runLen_take_all _ t2
            have hg2len : (t2.take (digitRun t2)).length = digitRun t2 := by
              simp [List.length_take]
              omega
            have ht : t = t.take (digitRun t) ++ '.' :: t2 := by
              conv_lhs => rw [← List.take_append_drop (digitRun t) t]
              rw [heq1]
            have ht2 : t2 = t2.take (digitRun t2) ++ '.' :: t4 := by
              conv_lhs => rw [← List.take_append_drop (digitRun t2) t2]
              rw [heq2]
            have hg3 : t4.take e = dc :: t4'.take (e - 1) := by
              rw [ht4c]
              cases e with
              | zero => omega
              | succ e' =>
                rw [List.take_succ_cons]
                simp
            have hg3all : (t4.take e).all isVerChar = true := by
              have hsub : t4.take e = (t4.take (classRun t4)).take e := by
                rw [List.take_take]
                congr 1
                omega
              rw [hsub]
              exact all_take_of_all isVerChar _ e (runLen_take_all isVerChar t4)
            have hg3len : (t4.take e).length = e := by
              simp [List.length_take]
              omega
            refine ⟨t.take (digitRun t) ++ '.' ::
                (t2.take (digitRun t2) ++ '.' :: t4.take e), t4.drop e, ?_, ?_, ?_, ?_⟩
            · conv_lhs => rw [ht]
              conv_lhs => rw [ht2]
              conv_lhs => rw [← List.take_append_drop e t4]
              simp [List.append_assoc]
            · refine ⟨t.take (digitRun t), t2.take (digitRun t2), dc, t4'.take (e - 1),
                ?_, ?_, hg1all, ?_, hg2all, hdc, ?_⟩
              · rw [hg3]
              · intro hc
                rw [hc] at hg1len
                simp at hg1len
                omega
              · intro hc
                rw [hc] at hg2len
                simp at hg2len
                omega
              · rw [← hg3]
                exact hg3all
            · simp only [List.length_append, List.length_cons, hg1len, hg2len, hg3len]
              omega
            · exact hext

/-! ## Completeness of the version matcher -/

theorem parseVer_eval (a : Bool) (g1 g2 t4 : List Char)
    (hg1ne : g1 ≠ []) (hg1all : g1.all Char.isDigit = true)
    (hg2ne : g2 ≠ []) (hg2all : g2.all Char.isDigit = true) :
    parseVer a (g1 ++ '.' :: (g2 ++ '.' :: t4))
      = (afterDots a t4).map (fun e => g1.length + 1 + g2.length + 1 + e) := by
  have hstop1 : ∀ c cs, ('.' :: (g2 ++ '.' :: t4)) = c :: cs → Char.isDigit c = false := by
    intro c cs hc
    cases hc
    decide
  have hd1 : digitRun (g1 ++ '.' :: (g2 ++ '.' :: t4)) = g1.length :=
    runLen_split Char.isDigit g1 _ hg1all hstop1
  have hne1 : ¬ digitRun (g1 ++ '.' :: (g2 ++ '.' :: t4)) = 0 := by
    rw [hd1]
    intro hc
    exact hg1ne (List.length_eq_zero.mp hc)
  have hdrop1 : (g1 ++ '.' :: (g2 ++ '.' :: t4)).drop
      (digitRun (g1 ++ '.' :: (g2 ++ '.' :: t4))) = '.' :: (g2 ++ '.' :: t4) := by
    rw [hd1]
    exact List.drop_left _ _
  have hstop2 : ∀ c cs, ('.' :: t4) = c :: cs → Char.isDigit c = false := by
    intro c cs hc
    cases hc
    decide
  have hd2 : digitRun (g2 ++ '.' :: t4) = g2.length :=
    runLen_split Char.isDigit g2 _ hg2all hstop2
  have hne2 : ¬ digitRun (g2 ++ '.' :: t4) = 0 := by
    rw [hd2]
    intro hc
    exact hg2ne (List.length_eq_zero.mp hc)
  have hdrop2 : (g2 ++ '.' :: t4).drop (digitRun (g2 ++ '.' :: t4)) = '.' :: t4 := by
    rw [hd2]
    exact List.drop_left _ _
  unfold parseVer
  rw [if_neg hne1, hdrop1]
  simp only [parseLevel1, if_pos rfl]
  rw [if_neg hne2, hdrop2]
  simp only [parseLevel2, if_pos rfl]
  rw [hd1, hd2]
  simp

theorem afterDots_complete_true (g3 r : List Char) (hg3ne : g3 ≠ [])
    (hg3all : g3.all isVerChar = true) (hd : digitRun (g3 ++ r) ≠ 0)
    (hr : extAt r = true) :
    afterDots true (g3 ++ r) = some g3.length := by
  obtain ⟨rr, hrr⟩ := extAt_head r hr
  have hstop : ∀ c cs, r = c :: cs → isVerChar c = false := by
    intro c cs hc
    rw [hrr] at hc
    cases hc
    decide
  have hclass : classRun (g3 ++ r) = g3.length :=
    runLen_split isVerChar g3 r hg3all hstop
  have hdropg3 : (g3 ++ r).drop g3.length = r := List.drop_left _ _
  unfold afterDots
  rw [if_neg hd]
  simp only [if_true]
  rw [hclass]
  cases hg3l : g3.length with
  | zero => exact absurd (List.length_eq_zero.mp hg3l) hg3ne
  | succ m =>
    unfold bestE
    rw [← hg3l, hdropg3, if_pos hr, hg3l]

theorem parseVer_complete_true (w r : List Char) (hw : Ver3 w) (hr : extAt r = true) :
    parseVer true (w ++ r) = some w.length := by
  obtain ⟨g1, g2, d, g3t, hweq, hg1ne, hg1all, hg2ne, hg2all, hd, hg3all⟩ := hw
  have hshape : w ++ r = g1 ++ '.' :: (g2 ++ '.' :: ((d :: g3t) ++ r)) := by
    rw [hweq]
    simp [List.append_assoc]
  have hdig : digitRun ((d :: g3t) ++ r) ≠ 0 := by
    show ¬ runLen Char.isDigit (d :: (g3t ++ r)) = 0
    rw [runLen_cons, if_pos hd]
    omega
  rw [hshape, parseVer_eval true g1 g2 _ hg1ne hg1all hg2ne hg2all,
    afterDots_complete_true (d :: g3t) r (by simp) hg3all hdig hr]
  simp only [Option.map_some', Option.some.injEq]
  rw [hweq]
  simp only [List.length_append, List.length_cons]
  omega

theorem parseVer_complete_false (w r : List Char) (hw : Ver3 w) :
    (parseVer false (w ++ r)).isSome = true := by
  obtain ⟨g1, g2, d, g3t, hweq, hg1ne, hg1all, hg2ne, hg2all, hd, hg3all⟩ := hw
  have hshape : w ++ r = g1 ++ '.' :: (g2 ++ '.' :: ((d :: g3t) ++ r)) := by
    rw [hweq]
    simp [List.append_assoc]
  have hdig : ¬ digitRun ((d :: g3t) ++ r) = 0 := by
    show ¬ runLen Char.isDigit (d :: (g3t ++ r)) = 0
    rw [runLen_cons, if_pos hd]
    omega
  rw [hshape, parseVer_eval false g1 g2 _ hg1ne hg1all hg2ne hg2all]
  unfold afterDots
  rw [if_neg hdig]
  simp

/-! ## Soundness and completeness of the search -/

theorem tryAt_nil (a : Bool) : tryAt a [] = none := rfl

theorem tryAt_cons_v (a : Bool) (t : List Char) :
    tryAt a ('v' :: t) = (parseVer a t).map (fun n => (true, n)) := by
  simp [tryAt]

theorem tryAt_sound (a : Bool) (t : List Char) (hv : Bool) (n : Nat)
    (h : tryAt a t = some (hv, n)) :
    ∃ w r, t = (if hv then ['v'] else []) ++ w ++ r ∧ Ver3 w ∧ w.length = n ∧
      (a = true → extAt r = true) := by
  cases t with
  | nil => simp [tryAt] at h
  | cons c t2 =>
    simp only [tryAt] at h
    by_cases hc : c = 'v'
    · rw [if_pos hc] at h
      cases hp : parseVer a t2 with
      | none =>
        rw [hp] at h
        cases h
      | some m =>
        rw [hp] at h
        simp only [Option.map_some', Option.some.injEq, Prod.mk.injEq] at h
        obtain ⟨hhv, hn⟩ := h
        obtain ⟨w, r, hteq, hver, hlen, hext⟩ := parseVer_sound a t2 m hp
        refine ⟨w, r, ?_, hver, by omega, hext⟩
        rw [← hhv, hc, hteq]
        simp
    · rw [if_neg hc] at h
      cases hp : parseVer a (c :: t2) with
      | none =>
        rw [hp] at h
        cases h
      | some m =>
        rw [hp] at h
        simp only [Option.map_some', Option.some.injEq, Prod.mk.injEq] at h
        obtain ⟨hhv, hn⟩ := h
        obtain ⟨w, r, hteq, hver, hlen, hext⟩ := parseVer_sound a (c :: t2) m hp
        refine ⟨w, r, ?_, hver, by omega, hext⟩
        rw [← hhv, hteq]
        simp

theorem tryAt_complete_nov (a : Bool) (w r : List Char) (hw : Ver3 w) :
    tryAt a (w ++ r) = (parseVer a (w ++ r)).map (fun n => (false, n)) := by
  obtain ⟨c, cs, hcons, hc⟩ := ver3_cons w hw
  have hre : w ++ r = c :: (cs ++ r) := by
    rw [hcons]
    rfl
  rw [hre]
  simp only [tryAt]
  rw [if_neg (digit_ne_of c 'v' hc (by decide))]

theorem searchVer_sound (a : Bool) : ∀ (s : List Char) (i : Nat) (hv : Bool) (n : Nat),
    searchVer a s = some (i, hv, n) →
      i ≤ s.length ∧ tryAt a (s.drop i) = some (hv, n) ∧
        ∀ j, j < i → tryAt a (s.drop j) = none := by
  intro s
  induction s with
  | nil =>
    intro i hv n h
    cases h
  | cons c cs ih =>
    intro i hv n h
    simp only [searchVer] at h
    split at h
    · rename_i hv' n' heq
      simp only [Option.some.injEq, Prod.mk.injEq] at h
      obtain ⟨h0, hhv, hn⟩ := h
      subst h0
      subst hhv
      subst hn
      exact ⟨by omega, heq, fun j hj => absurd hj (by omega)⟩
    · rename_i heq
      cases hs : searchVer a cs with
      | none =>
        rw [hs] at h
        cases h
      | some rr =>
        obtain ⟨i', hv', n'⟩ := rr
        rw [hs] at h
        simp only [Option.map_some', Option.some.injEq, Prod.mk.injEq] at h
        obtain ⟨hi, hhv, hn⟩ := h
        subst hi
        subst hhv
        subst hn
        obtain ⟨hle, htry, hlt⟩ := ih i' hv' n' hs
        refine ⟨by simp; omega, by simpa using htry, ?_⟩
        intro j hj
        cases j with
        | zero => simpa using heq
        | succ j' =>
          rw [List.drop_succ_cons]
          exact hlt j' (by omega)

theorem searchVer_isSome (a : Bool) :
    ∀ (p t : List Char), (tryAt a t).isSome = true →
      (searchVer a (p ++ t)).isSome = true := by
  intro p
  induction p with
  | nil =>
    intro t h
    cases t with
    | nil => simp [tryAt] at h
    | cons c cs =>
      simp only [List.nil_append, searchVer]
      split
      · simp
      · rename_i heq
        rw [heq] at h
        cases h
  | cons x p' ih =>
    intro t h
    simp only [List.cons_append, searchVer]
    split
    · simp
    · have hrec := ih t h
      cases hs : searchVer a (p' ++ t) with
      | none =>
        rw [hs] at hrec
        cases hrec
      | some rr =>
        simp

theorem searchVer_eq_of (a : Bool) : ∀ (s : List Char) (i : Nat) (hv : Bool) (n : Nat),
    (∀ j, j < i → tryAt a (s.drop j) = none) → tryAt a (s.drop i) = some (hv, n) →
    searchVer a s = some (i, hv, n) := by
  intro s
  induction s with
  | nil =>
    intro i hv n _ hi
    rw [List.drop_nil] at hi
    simp [tryAt] at hi
  | cons c cs ih =>
    intro i hv n hlt hi
    cases i with
    | zero =>
      simp only [List.drop_zero] at hi
      simp only [searchVer]
      split
      · rename_i hv' n' heq
        rw [hi] at heq
        simp only [Option.some.injEq, Prod.mk.injEq] at heq
        rw [heq.1, heq.2]
      · rename_i heq
        rw [hi] at heq
        cases heq
    | succ i' =>
      have h0 : tryAt a (c :: cs) = none := by simpa using hlt 0 (by omega)
      simp only [searchVer]
      split
      · rename_i hv' n' heq
        rw [h0] at heq
        cases heq
      · rw [ih i' hv n (fun j hj => by simpa using hlt (j + 1) (by omega))
          (by simpa using hi)]
        rfl

/-! ## Claim C1: the version-shape grammar of the URL deriver -/

/-- Claim C1 (counterexample to the claim as stated): the URL
`https://example.com/v1.2.zip` contains a spec-version-shaped substring
(`v1.2`: two dot-separated numeric groups with a leading `v`), yet the code
fails with the pattern-not-found error, because its pattern requires three
numeric groups. -/
theorem c1_counterexample :
    HasSpecVer (toL "https://example.com/v1.2.zip") ∧
    deriveUrlCore (toL "https://example.com/v1.2.zip") (toL "9.9.9")
      = DRes.errPatternNotFound := by
  constructor
  · refine ⟨toL "https://example.com/", toL "v1.2", toL ".zip", by decide, ?_⟩
    refine ⟨[['1'], ['2']], [], by decide, ?_, by decide, Or.inr (by decide)⟩
    intro g hg
    simp only [List.mem_cons, List.not_mem_nil, or_false] at hg
    rcases hg with rfl | rfl <;> exact ⟨by decide, by decide⟩
  · decide

/-- Claim C1 (amended): the deriver searches for a substring of exactly
**three** dot-separated numeric groups (optionally prefixed by `v`,
optionally continued by a dot-free tail of alphanumerics/hyphens/
underscores), preferring an extension-anchored match (`.tar.gz`/`.zip`) and
falling back to the first such substring anywhere; it errors exactly when no
such (three-group) substring exists; on a match the result is
`prefix + (leading v) + new_version + suffix`. -/
theorem c1_amended_theorem (url newv : List Char) :
    (deriveUrlCore url newv = DRes.errPatternNotFound ↔ ¬ HasVer3 url) ∧
    (∀ res, deriveUrlCore url newv = DRes.ok res →
      ∃ p vs w r, url = p ++ vs ++ w ++ r ∧ (vs = [] ∨ vs = ['v']) ∧ Ver3 w ∧
        res = p ++ vs ++ newv ++ r ∧ (HasAnchVer3 url → extAt r = true)) := by
  constructor
  · constructor
    · intro herr hhas
      obtain ⟨p, w, r, heq, hw⟩ := hhas
      have heq' : url = p ++ (w ++ r) := by
        rw [heq, List.append_assoc]
      have hsome : (searchVer false url).isSome = true := by
        rw [heq']
        apply searchVer_isSome
        rw [tryAt_complete_nov false w r hw]
        have hps := parseVer_complete_false w r hw
        cases hp : parseVer false (w ++ r) with
        | none =>
          rw [hp] at hps
          cases hps
        | some m => simp
      unfold deriveUrlCore at herr
      cases ht : searchVer true url with
      | some rr =>
        obtain ⟨i, hv, n⟩ := rr
        rw [ht] at herr
        simp at herr
      | none =>
        cases hf : searchVer false url with
        | some rr =>
          obtain ⟨i, hv, n⟩ := rr
          rw [ht, hf] at herr
          simp at herr
        | none =>
          rw [hf] at hsome
          cases hsome
    · intro hno
      have ht : searchVer true url = none := by
        cases ht : searchVer true url with
        | none => rfl
        | some rr =>
          obtain ⟨i, hv, n⟩ := rr
          obtain ⟨hle, htry, _⟩ := searchVer_sound true url i hv n ht
          obtain ⟨w, r, hdeq, hw, _, _⟩ := tryAt_sound true _ hv n htry
          exfalso
          apply hno
          refine ⟨url.take i ++ (if hv then ['v'] else []), w, r, ?_, hw⟩
          conv_lhs => rw [← List.take_append_drop i url]
          rw [hdeq]
          simp [List.append_assoc]
      have hf : searchVer false url = none := by
        cases hf : searchVer false url with
        | none => rfl
        | some rr =>
          obtain ⟨i, hv, n⟩ := rr
          obtain ⟨hle, htry, _⟩ := searchVer_sound false url i hv n hf
          obtain ⟨w, r, hdeq, hw, _, _⟩ := tryAt_sound false _ hv n htry
          exfalso
          apply hno
          refine ⟨url.take i ++ (if hv then ['v'] else []), w, r, ?_, hw⟩
          conv_lhs => rw [← List.take_append_drop i url]
          rw [hdeq]
          simp [List.append_assoc]
      unfold deriveUrlCore
      rw [ht, hf]
  · intro res hok
    unfold deriveUrlCore at hok
    cases ht : searchVer true url with
    | some rr =>
      obtain ⟨i, hv, n⟩ := rr
      rw [ht] at hok
      simp only [Option.some.injEq, DRes.ok.injEq] at hok
      obtain ⟨hle, htry, _⟩ := searchVer_sound true url i hv n ht
      obtain ⟨w, r, hdeq, hw, hlen, hext⟩ := tryAt_sound true _ hv n htry
      have hurl : url = (url.take i ++ (if hv then ['v'] else []) ++ w) ++ r := by
        conv_lhs => rw [← List.take_append_drop i url]
        rw [hdeq]
        simp [List.append_assoc]
      have hlen2 : (url.take i ++ (if hv then ['v'] else []) ++ w).length
          = i + (if hv then 1 else 0) + n := by
        simp only [List.length_append, List.length_take]
        have hmin : min i url.length = i := Nat.min_eq_left hle
        rw [hmin, hlen]
        cases hv <;> simp
      have hdrop : url.drop (i + (if hv then 1 else 0) + n) = r := by
        conv_lhs => rw [hurl]
        rw [← hlen2]
        exact List.drop_left _ _
      refine ⟨url.take i, if hv then ['v'] else [], w, r, hurl, ?_, hw, ?_,
        fun _ => hext rfl⟩
      · cases hv
        · exact Or.inl rfl
        · exact Or.inr rfl
      · rw [← hok, hdrop]
    | none =>
      cases hf : searchVer false url with
      | none =>
        rw [ht, hf] at hok
        simp at hok
      | some rr =>
        obtain ⟨i, hv, n⟩ := rr
        rw [ht, hf] at hok
        simp only [Option.some.injEq, DRes.ok.injEq] at hok
        obtain ⟨hle, htry, _⟩ := searchVer_sound false url i hv n hf
        obtain ⟨w, r, hdeq, hw, hlen, _⟩ := tryAt_sound false _ hv n htry
        have hurl : url = (url.take i ++ (if hv then ['v'] else []) ++ w) ++ r := by
          conv_lhs => rw [← List.take_append_drop i url]
          rw [hdeq]
          simp [List.append_assoc]
        have hlen2 : (url.take i ++ (if hv then ['v'] else []) ++ w).length
            = i + (if hv then 1 else 0) + n := by
          simp only [List.length_append, List.length_take]
          have hmin : min i url.length = i := Nat.min_eq_left hle
          rw [hmin, hlen]
          cases hv <;> simp
        have hdrop : url.drop (i + (if hv then 1 else 0) + n) = r := by
          conv_lhs => rw [hurl]
          rw [← hlen2]
          exact List.drop_left _ _
        refine ⟨url.take i, if hv then ['v'] else [], w, r, hurl, ?_, hw, ?_, ?_⟩
        · cases hv
          · exact Or.inl rfl
          · exact Or.inr rfl
        · rw [← hok, hdrop]
        · intro hanch
          exfalso
          obtain ⟨p, w', r', heq', hw', hextr'⟩ := hanch
          have hsome : (searchVer true url).isSome = true := by
            have heq2 : url = p ++ (w' ++ r') := by
              rw [heq', List.append_assoc]
            rw [heq2]
            apply searchVer_isSome
            rw [tryAt_complete_nov true w' r' hw',
              parseVer_complete_true w' r' hw' hextr']
            simp
          rw [ht] at hsome
          cases hsome

/-- Witness for C1: the amended theorem instantiated at a concrete URL. -/
theorem c1_amended_witness :
    (deriveUrlCore (toL "https://x/v1.2.3.tar.gz") (toL "2.0.0")
        = DRes.errPatternNotFound ↔ ¬ HasVer3 (toL "https://x/v1.2.3.tar.gz")) ∧
    (∀ res, deriveUrlCore (toL "https://x/v1.2.3.tar.gz") (toL "2.0.0") = DRes.ok res →
      ∃ p vs w r, toL "https://x/v1.2.3.tar.gz" = p ++ vs ++ w ++ r ∧
        (vs = [] ∨ vs = ['v']) ∧ Ver3 w ∧ res = p ++ vs ++ toL "2.0.0" ++ r ∧
        (HasAnchVer3 (toL "https://x/v1.2.3.tar.gz") → extAt r = true)) :=
  c1_amended_theorem (toL "https://x/v1.2.3.tar.gz") (toL "2.0.0")

/-! ## Stability of the anchored match under replacement of a trailing
version-shaped segment

`parseStab` is the heart of the round-trip law: if the anchored pattern
matches at the head of `c0 ++ w ++ r` (with `w` version-shaped and `r`
extension-anchored) then it also matches at the head of `c0 ++ w' ++ r` for
any other version-shaped `w'`.  Hence the leftmost anchored match of the
substituted URL sits at the same position as in the original URL. -/

theorem all_append_left (f : Char → Bool) (xs ys : List Char)
    (h : (xs ++ ys).all f = true) : xs.all f = true := by
  rw [List.all_append] at h
  exact (Bool.and_eq_true _ _ |>.mp h).1

theorem all_append_right (f : Char → Bool) (xs ys : List Char)
    (h : (xs ++ ys).all f = true) : ys.all f = true := by
  rw [List.all_append] at h
  exact (Bool.and_eq_true _ _ |>.mp h).2

theorem parseStab (c0 w w' r : List Char) (hw : Ver3 w) (hw' : Ver3 w')
    (hr : extAt r = true)
    (h : (parseVer true (c0 ++ w ++ r)).isSome = true) :
    (parseVer true (c0 ++ w' ++ r)).isSome = true := by
  cases hp : parseVer true (c0 ++ w ++ r) with
  | none =>
    rw [hp] at h
    cases h
  | some n =>
  obtain ⟨wm, rm, heqm, hwm, hlenm, hextm⟩ := parseVer_sound true _ n hp
  have hextrm : extAt rm = true := hextm rfl
  obtain ⟨G1, G2, D, G3t, hwmeq, hG1ne, hG1all, hG2ne, hG2all, hD, hG3all⟩ := hwm
  obtain ⟨g1, g2, d, g3t, hweq, hg1ne, hg1all, hg2ne, hg2all, hd, hg3all⟩ := hw
  obtain ⟨g1', g2', d', g3t', hw'eq, hg1'ne, hg1'all, hg2'ne, hg2'all, hd', hg3'all⟩ := hw'
  have hwver : Ver3 w := ⟨g1, g2, d, g3t, hweq, hg1ne, hg1all, hg2ne, hg2all, hd, hg3all⟩
  have hw'ver : Ver3 w' :=
    ⟨g1', g2', d', g3t', hw'eq, hg1'ne, hg1'all, hg2'ne, hg2'all, hd', hg3'all⟩
  have hE : c0 ++ (w ++ r) = G1 ++ '.' :: (G2 ++ '.' :: ((D :: G3t) ++ rm)) := by
    calc c0 ++ (w ++ r) = (c0 ++ w) ++ r := by rw [List.append_assoc]
    _ = wm ++ rm := heqm
    _ = G1 ++ '.' :: (G2 ++ '.' :: ((D :: G3t) ++ rm)) := by
        rw [hwmeq]
        simp [List.append_assoc]
  have hwr : w ++ r = g1 ++ '.' :: (g2 ++ '.' :: ((d :: g3t) ++ r)) := by
    rw [hweq]
    simp [List.append_assoc]
  by_cases hcase : c0.length ≤ G1.length
  · -- the match begins with `c0` extended into the first digit group:
    -- `c0` is all digits, so `c0 ++ w'` matches again, anchored at `r`.
    obtain ⟨t, hG1t, _⟩ := append_split_of_le hE.symm hcase
    have hc0dig : c0.all Char.isDigit = true := by
      rw [hG1t] at hG1all
      exact all_append_left _ _ _ hG1all
    have hVer : Ver3 ((c0 ++ g1') ++ '.' :: (g2' ++ '.' :: (d' :: g3t'))) := by
      refine ⟨c0 ++ g1', g2', d', g3t', rfl, ?_, ?_, hg2'ne, hg2'all, hd', hg3'all⟩
      · intro hc
        exact hg1'ne (List.append_eq_nil.mp hc).2
      · rw [List.all_append]
        exact Bool.and_eq_true _ _ |>.mpr ⟨hc0dig, hg1'all⟩
    have hcomp := parseVer_complete_true _ r hVer hr
    have harr : c0 ++ w' ++ r
        = ((c0 ++ g1') ++ '.' :: (g2' ++ '.' :: (d' :: g3t'))) ++ r := by
      rw [hw'eq]
      simp [List.append_assoc]
    rw [harr, hcomp]
    rfl
  · push_neg at hcase
    obtain ⟨t, hc0eq, hBeq⟩ := append_split_of_le hE (Nat.le_of_lt hcase)
    cases t with
    | nil =>
      exfalso
      have := congrArg List.length hc0eq
      simp at this
      omega
    | cons tc t' =>
      rw [List.cons_append] at hBeq
      have htc1 : tc = '.' := ((List.cons.injEq _ _ _ _).mp hBeq).1.symm
      have hB2 : G2 ++ '.' :: ((D :: G3t) ++ rm) = t' ++ (w ++ r) :=
        ((List.cons.injEq _ _ _ _).mp hBeq).2
      subst htc1
      by_cases hcase2 : t'.length ≤ G2.length
      · -- the second parse group would end inside the first group of `w`,
        -- putting the lookahead on a digit: impossible.
        exfalso
        obtain ⟨u, hG2u, hres2⟩ := append_split_of_le hB2 hcase2
        have hudig : u.all Char.isDigit = true := by
          rw [hG2u] at hG2all
          exact all_append_right _ _ _ hG2all
        obtain ⟨hg1u, hal1⟩ := alignRun Char.isDigit (by decide) g1 u _ _ hg1all hudig
          (by rw [← hwr, hres2])
        obtain ⟨rrm, hrm0⟩ := extAt_head rm hextrm
        have hal1' : g2 ++ '.' :: ((d :: g3t) ++ r) = (D :: G3t) ++ '.' :: rrm := by
          rw [hal1, hrm0]
        obtain ⟨hg2D, hal2⟩ := alignRun isVerChar (by decide) g2 (D :: G3t) _ _
          (all_digit_verChar g2 hg2all) hG3all hal1'
        rw [hrm0, ← hal2, List.cons_append] at hextrm
        rw [extAt_dot_digit d (g3t ++ r) hd] at hextrm
        cases hextrm
      · push_neg at hcase2
        obtain ⟨u2, ht'eq, hres3⟩ := append_split_of_le hB2.symm (Nat.le_of_lt hcase2)
        cases u2 with
        | nil =>
          exfalso
          have := congrArg List.length ht'eq
          simp at this
          omega
        | cons uc u2' =>
          rw [List.cons_append] at hres3
          have huc1 : uc = '.' := ((List.cons.injEq _ _ _ _).mp hres3).1.symm
          have hC2 : (D :: G3t) ++ rm = u2' ++ (w ++ r) :=
            ((List.cons.injEq _ _ _ _).mp hres3).2
          subst huc1
          by_cases hcase3 : u2'.length ≤ (D :: G3t).length
          · -- the third parse group would end inside the first group of `w`:
            -- again the lookahead sits on a digit.
            exfalso
            obtain ⟨u3, hG3u, hres4⟩ := append_split_of_le hC2 hcase3
            have hu3cls : u3.all isVerChar = true := by
              rw [hG3u] at hG3all
              exact all_append_right _ _ _ hG3all
            obtain ⟨rrm, hrm0⟩ := extAt_head rm hextrm
            have hal1' : g1 ++ '.' :: (g2 ++ '.' :: ((d :: g3t) ++ r))
                = u3 ++ '.' :: rrm := by
              rw [← hwr, hres4, hrm0]
            obtain ⟨hg1u3, hal2⟩ := alignRun isVerChar (by decide) g1 u3 _ _
              (all_digit_verChar g1 hg1all) hu3cls hal1'
            rw [hrm0, ← hal2] at hextrm
            cases hg2c : g2 with
            | nil => exact hg2ne hg2c
            | cons cg2 csg2 =>
              have hcg2 : cg2.isDigit = true := by
                rw [hg2c] at hg2all
                simp only [List.all_cons, Bool.and_eq_true] at hg2all
                exact hg2all.1
              rw [hg2c, List.cons_append] at hextrm
              rw [extAt_dot_digit cg2 _ hcg2] at hextrm
              cases hextrm
          · -- the match ends inside `c0` itself: it survives the
            -- substitution of `w` by `w'`.
            push_neg at hcase3
            obtain ⟨u4, hu2'eq, hrmeq⟩ := append_split_of_le hC2.symm (Nat.le_of_lt hcase3)
            obtain ⟨cw, csw, hwcons, hcw⟩ := ver3_cons w hwver
            obtain ⟨cw', csw', hw'cons, hcw'⟩ := ver3_cons w' hw'ver
            cases u4 with
            | nil =>
              exfalso
              rw [List.nil_append] at hrmeq
              rw [hrmeq, hwcons, List.cons_append] at hextrm
              rw [extAt_cons_ne_dot cw _ (digit_ne_of cw '.' hcw (by decide))] at hextrm
              cases hextrm
            | cons u4c u4' =>
              have h1 : (u4c :: u4') ++ (w ++ r) = (u4c :: u4') ++ (cw :: (csw ++ r)) := by
                rw [hwcons]
                simp [List.append_assoc]
              have h2 : (u4c :: u4') ++ (w' ++ r)
                  = (u4c :: u4') ++ (cw' :: (csw' ++ r)) := by
                rw [hw'cons]
                simp [List.append_assoc]
              have hstab : extAt ((u4c :: u4') ++ (w' ++ r)) = true := by
                rw [h2, ← extAt_digit_stable (u4c :: u4') cw (csw ++ r) cw'
                  (csw' ++ r) hcw hcw', ← h1, ← hrmeq]
                exact hextrm
              have hVer : Ver3 (G1 ++ '.' :: (G2 ++ '.' :: (D :: G3t))) :=
                ⟨G1, G2, D, G3t, rfl, hG1ne, hG1all, hG2ne, hG2all, hD, hG3all⟩
              have hcomp := parseVer_complete_true _ ((u4c :: u4') ++ (w' ++ r)) hVer hstab
              have harr : c0 ++ w' ++ r
                  = (G1 ++ '.' :: (G2 ++ '.' :: (D :: G3t)))
                      ++ ((u4c :: u4') ++ (w' ++ r)) := by
                rw [hc0eq, ht'eq, hu2'eq]
                simp [List.append_assoc]
              rw [harr, hcomp]
              rfl

theorem option_map_isSome (o : Option Nat) (f : Nat → Bool × Nat) :
    ((o.map f).isSome) = o.isSome := by
  cases o <;> rfl

theorem tryAtStab (c w w' r : List Char) (hw : Ver3 w) (hw' : Ver3 w')
    (hr : extAt r = true)
    (h : (tryAt true (c ++ w ++ r)).isSome = true) :
    (tryAt true (c ++ w' ++ r)).isSome = true := by
  cases c with
  | nil =>
    simp only [List.nil_append]
    rw [tryAt_complete_nov true w' r hw', parseVer_complete_true w' r hw' hr]
    rfl
  | cons ch c' =>
    simp only [List.cons_append] at h ⊢
    simp only [tryAt] at h ⊢
    by_cases hch : ch = 'v'
    · rw [if_pos hch, option_map_isSome] at h
      rw [if_pos hch, option_map_isSome]
      exact parseStab c' w w' r hw hw' hr h
    · rw [if_neg hch, option_map_isSome] at h
      rw [if_neg hch, option_map_isSome]
      exact parseStab (ch :: c') w w' r hw hw' hr h

/-! ## Claim C6: the URL derivation round-trip law -/

theorem deriveUrlCore_eq_of_search (url v2 : List Char) (i : Nat) (hv : Bool)
    (n : Nat) (h : searchVer true url = some (i, hv, n)) :
    deriveUrlCore url v2
      = DRes.ok (url.take i ++ (if hv then ['v'] else []) ++ v2 ++
          url.drop (i + (if hv then 1 else 0) + n)) := by
  unfold deriveUrlCore
  rw [h]

/-- Claim C6 (counterexample to the claim as stated): substituting the
version `1.0.0-rc.1` (whose pre-release tail contains a dot) into
`https://x/archive/1.2.3.tar.gz` and then re-deriving with the original
version `1.2.3` does **not** recover the original URL: the second
derivation's anchored pattern cannot match (`rc.1` has a dot in the tail),
the unanchored fallback matches only `1.0.0-rc`, and the result is
`https://x/archive/1.2.3.1.tar.gz`. -/
theorem c6_counterexample :
    HasAnchVer3 (toL "https://x/archive/1.2.3.tar.gz") ∧
    deriveUrlCore (toL "https://x/archive/1.2.3.tar.gz") (toL "1.0.0-rc.1")
      = DRes.ok (toL "https://x/archive/1.0.0-rc.1.tar.gz") ∧
    deriveUrlCore (toL "https://x/archive/1.0.0-rc.1.tar.gz") (toL "1.2.3")
      = DRes.ok (toL "https://x/archive/1.2.3.1.tar.gz") ∧
    toL "https://x/archive/1.2.3.1.tar.gz" ≠ toL "https://x/archive/1.2.3.tar.gz" := by
  refine ⟨⟨toL "https://x/archive/", toL "1.2.3", toL ".tar.gz", by decide,
    ⟨['1'], ['2'], '3', [], by decide, by decide, by decide, by decide,
      by decide, by decide, by decide⟩, by decide⟩, ?_, ?_, by decide⟩
  · decide
  · decide

/-- Claim C6 (amended): for any URL containing a code-matchable version
substring immediately followed by a known archive extension, and any new
version `v2` that is itself shaped like a code-matchable version (three
dot-separated numeric groups with an optional dot-free tail — dots in a
pre-release tail break the law, see the counterexample), `derive(url, v2)`
changes only the version substring of the leftmost anchored match (prefix,
optional leading `v`, and extension suffix are preserved), and re-deriving
the result with the original version substring recovers the original URL
exactly. -/
theorem c6_amended_theorem (url v2 : List Char) (hanch : HasAnchVer3 url)
    (hv2 : Ver3 v2) :
    ∃ p vs w1 suf, url = p ++ vs ++ w1 ++ suf ∧ (vs = [] ∨ vs = ['v']) ∧
      Ver3 w1 ∧ extAt suf = true ∧
      deriveUrlCore url v2 = DRes.ok (p ++ vs ++ v2 ++ suf) ∧
      deriveUrlCore (p ++ vs ++ v2 ++ suf) w1 = DRes.ok url := by
  have hsome : (searchVer true url).isSome = true := by
    obtain ⟨p0, w0, r0, heq0, hw0, hext0⟩ := hanch
    have heq2 : url = p0 ++ (w0 ++ r0) := by
      rw [heq0, List.append_assoc]
    rw [heq2]
    apply searchVer_isSome
    rw [tryAt_complete_nov true w0 r0 hw0, parseVer_complete_true w0 r0 hw0 hext0]
    simp
  cases ht : searchVer true url with
  | none =>
    rw [ht] at hsome
    cases hsome
  | some rr =>
    obtain ⟨i, hv, n⟩ := rr
    obtain ⟨hle, htry, hnone⟩ := searchVer_sound true url i hv n ht
    obtain ⟨w, r, hdeq, hw, hlen, hext⟩ := tryAt_sound true _ hv n htry
    have hextr : extAt r = true := hext rfl
    have htk : (url.take i).length = i := by
      rw [List.length_take]
      exact Nat.min_eq_left hle
    have hurl : url = (url.take i ++ (if hv then ['v'] else []) ++ w) ++ r := by
      conv_lhs => rw [← List.take_append_drop i url]
      rw [hdeq]
      simp [List.append_assoc]
    have hlen2 : (url.take i ++ (if hv then ['v'] else []) ++ w).length
        = i + (if hv then 1 else 0) + n := by
      simp only [List.length_append, List.length_take]
      have hmin : min i url.length = i := Nat.min_eq_left hle
      rw [hmin, hlen]
      cases hv <;> simp
    have hdrop : url.drop (i + (if hv then 1 else 0) + n) = r := by
      conv_lhs => rw [hurl]
      rw [← hlen2]
      exact List.drop_left _ _
    have hd1 : deriveUrlCore url v2
        = DRes.ok (url.take i ++ (if hv then ['v'] else []) ++ v2 ++ r) := by
      rw [deriveUrlCore_eq_of_search url v2 i hv n ht, hdrop]
    have hurl2 : url = url.take i ++ ((if hv then ['v'] else []) ++ w ++ r) := by
      conv_lhs => rw [hurl]
      simp [List.append_assoc]
    have hre : url.take i ++ (if hv then ['v'] else []) ++ v2 ++ r
        = url.take i ++ ((if hv then ['v'] else []) ++ v2 ++ r) := by
      simp [List.append_assoc]
    have hdropi : (url.take i ++ (if hv then ['v'] else []) ++ v2 ++ r).drop i
        = (if hv then ['v'] else []) ++ v2 ++ r := by
      rw [hre]
      exact List.drop_left' htk
    have htry2 : tryAt true ((if hv then ['v'] else []) ++ v2 ++ r)
        = some (hv, v2.length) := by
      cases hv with
      | false =>
        show tryAt true (v2 ++ r) = some (false, v2.length)
        rw [tryAt_complete_nov true v2 r hv2, parseVer_complete_true v2 r hv2 hextr]
        rfl
      | true =>
        show tryAt true ('v' :: (v2 ++ r)) = some (true, v2.length)
        rw [tryAt_cons_v, parseVer_complete_true v2 r hv2 hextr]
        rfl
    have hnone2 : ∀ j, j < i →
        tryAt true ((url.take i ++ (if hv then ['v'] else []) ++ v2 ++ r).drop j)
          = none := by
      intro j hj
      have hjle : j ≤ (url.take i).length := by
        rw [htk]
        omega
      have hdj : (url.take i ++ (if hv then ['v'] else []) ++ v2 ++ r).drop j
          = (url.take i).drop j ++ ((if hv then ['v'] else []) ++ v2 ++ r) := by
        rw [hre]
        exact List.drop_append_of_le_length hjle
      have hdu : url.drop j
          = (url.take i).drop j ++ ((if hv then ['v'] else []) ++ w ++ r) := by
        conv_lhs => rw [hurl2]
        exact List.drop_append_of_le_length hjle
      by_contra hcon
      have hs1 : (tryAt true
          ((url.take i ++ (if hv then ['v'] else []) ++ v2 ++ r).drop j)).isSome
            = true := by
        cases hx : tryAt true
            ((url.take i ++ (if hv then ['v'] else []) ++ v2 ++ r).drop j) with
        | none => exact absurd hx hcon
        | some x => rfl
      have hc1 : (url.take i).drop j ++ ((if hv then ['v'] else []) ++ v2 ++ r)
          = ((url.take i).drop j ++ (if hv then ['v'] else [])) ++ v2 ++ r := by
        simp [List.append_assoc]
      rw [hdj, hc1] at hs1
      have hs2 := tryAtStab ((url.take i).drop j ++ (if hv then ['v'] else []))
        v2 w r hv2 hw hextr hs1
      have hc2 : ((url.take i).drop j ++ (if hv then ['v'] else [])) ++ w ++ r
          = (url.take i).drop j ++ ((if hv then ['v'] else []) ++ w ++ r) := by
        simp [List.append_assoc]
      rw [hc2, ← hdu, hnone j hj] at hs2
      cases hs2
    have hs' : searchVer true (url.take i ++ (if hv then ['v'] else []) ++ v2 ++ r)
        = some (i, hv, v2.length) := by
      apply searchVer_eq_of true _ i hv v2.length hnone2
      rw [hdropi]
      exact htry2
    have hlen3 : (url.take i ++ (if hv then ['v'] else []) ++ v2).length
        = i + (if hv then 1 else 0) + v2.length := by
      simp only [List.length_append]
      rw [htk]
      cases hv <;> simp
    have hdrop2 : (url.take i ++ (if hv then ['v'] else []) ++ v2 ++ r).drop
        (i + (if hv then 1 else 0) + v2.length) = r := by
      rw [← hlen3]
      exact List.drop_left _ _
    have htake2 : (url.take i ++ (if hv then ['v'] else []) ++ v2 ++ r).take i
        = url.take i := by
      rw [hre]
      exact List.take_left' htk
    have hd2 : deriveUrlCore (url.take i ++ (if hv then ['v'] else []) ++ v2 ++ r) w
        = DRes.ok url := by
      rw [deriveUrlCore_eq_of_search _ w i hv v2.length hs', htake2, hdrop2]
      conv_rhs => rw [hurl]
    refine ⟨url.take i, (if hv then ['v'] else []), w, r, hurl, ?_, hw, hextr,
      hd1, hd2⟩
    cases hv
    · exact Or.inl rfl
    · exact Or.inr rfl

/-- Witness for C6: the amended round-trip theorem instantiated at the URL
`https://x/v1.2.3.tar.gz` and replacement version `2.0.0`. -/
theorem c6_amended_witness :
    ∃ p vs w1 suf, toL "https://x/v1.2.3.tar.gz" = p ++ vs ++ w1 ++ suf ∧
      (vs = [] ∨ vs = ['v']) ∧ Ver3 w1 ∧ extAt suf = true ∧
      deriveUrlCore (toL "https://x/v1.2.3.tar.gz") (toL "2.0.0")
        = DRes.ok (p ++ vs ++ toL "2.0.0" ++ suf) ∧
      deriveUrlCore (p ++ vs ++ toL "2.0.0" ++ suf) w1
        = DRes.ok (toL "https://x/v1.2.3.tar.gz") :=
  c6_amended_theorem (toL "https://x/v1.2.3.tar.gz") (toL "2.0.0")
    ⟨toL "https://x/v", toL "1.2.3", toL ".tar.gz", by decide,
      ⟨['1'], ['2'], '3', [], by decide, by decide, by decide, by decide,
        by decide, by decide, by decide⟩, by decide⟩
    ⟨['2'], ['0'], '0', [], by decide, by decide, by decide, by decide,
      by decide, by decide, by decide⟩
